import Mathlib

set_option autoImplicit false

/-!
Verification of the TaskTonic runtime core against its specification.

The definitions below are a shallow embedding of the Python sources
(`ttLedger.py`, `ttEssence.py`, `ttCatalyst.py`, `ttTonic.py`,
`internals/Store.py`): pure Lean functions mirror the methods, mutable
object state is passed explicitly, and raised exceptions are modelled
with `Except` / `Option`.  Definitions marked "Modelled from the spec"
correspond to methods that are called by the sources but whose bodies
are not part of the source tree.
-/

namespace TaskTonic

/-- A ledger metadata record (`ttEssence.my_record`): name, class tag,
parent context id, and the optional service key that
`ledger.update_record(instance.id, {'service': service_name})` adds. -/
structure TTRecord where
  rname : String
  rtype : String
  contextId : Int
  service : Option String := none
  deriving Repr, DecidableEq

/-- The per-instance state of a `ttEssence` that the ledger claims are
about: its name and its `service_context` list (contexts recorded by
their ledger slot index). -/
structure TTEssence where
  ename : String
  serviceContext : List Nat := []
  deriving Repr, DecidableEq

/-- The `ttLedger` singleton state: `records` (metadata by id) and
`essences` (direct access to instances by id), kept at equal length by
the source operations. Slots hold `none` when empty. -/
structure TTLedger where
  records : List (Option TTRecord)
  essences : List (Option TTEssence)
  deriving Repr, DecidableEq

/-- Python list subscription `xs[i]` for a list of length `len`:
indices `0 ≤ i < len` resolve directly, indices `-len ≤ i < 0` resolve
from the end, anything else raises `IndexError` (modelled as `none`). -/
def pyIdx (len : Nat) (i : Int) : Option Nat :=
  if 0 ≤ i then (if i < (len : Int) then some i.toNat else none)
  else (if -i ≤ (len : Int) then some (len - (-i).toNat) else none)

/-- `ttLedger.register(essence)` with `fixed_id=None` (the dynamic
path): the first `None` slot of `essences` is reused if one exists
(`self.essences.index(None)`), otherwise both lists are extended.  In
the append branch the source stores `essence.my_record` (an alias that
`ttEssence.__init__` then fills in), modelled as the final record value
`rec`; in the reuse branch the source leaves `records` untouched. -/
def register (st : TTLedger) (rec : TTRecord) (ess : TTEssence) : TTLedger × Nat :=
  match st.essences.findIdx? Option.isNone with
  | some i => ({ st with essences := st.essences.set i (some ess) }, i)
  | none =>
      ({ records := st.records ++ [some rec], essences := st.essences ++ [some ess] },
       st.essences.length)

/-- `ttLedger.unregister(essence)`: reads `essence.id` (here passed as
`essId`), raises `RuntimeError` when the id is `-1`, is at least the
slot-list length, or indexes an empty slot, and otherwise empties both
the record and the essence slot, returning the new state and the `-1`
written back into `essence.id`. -/
def unregister (st : TTLedger) (essId : Int) : Except String (TTLedger × Int) :=
  if essId = -1 then .error "Id not found to unregister"
  else if (st.essences.length : Int) ≤ essId then .error "Id not found to unregister"
  else
    match pyIdx st.essences.length essId with
    | none => .error "IndexError"
    | some i =>
        match st.essences.getD i none with
        | none => .error "Id not found to unregister"
        | some _ =>
            .ok ({ records := st.records.set i none, essences := st.essences.set i none }, -1)

/-- `ttLedger.get_essence_by_id(id)`: returns `None` when
`id >= len(self.essences)` and otherwise the raw Python subscription
`self.essences[id]`, which resolves negative ids from the end of the
slot list (an `IndexError` for ids below `-len` is the `.error` case). -/
def getEssenceById (st : TTLedger) (i : Int) : Except String (Option TTEssence) :=
  if (st.essences.length : Int) ≤ i then .ok none
  else
    match pyIdx st.essences.length i with
    | none => .error "IndexError"
    | some j => .ok (st.essences.getD j none)

/-- Modelled from the spec: `get_entity_by_service(key) → entity?`.  The
source metaclass calls `ledger.get_service_essence(service_name)` but the
method body is not in the source tree; per the spec the ledger "resolves
entities by ID / name / service-key" and "for a given key the ledger holds
at most one live entity".  We return the first live slot whose record
carries `service = key`, together with its id. -/
def getServiceEssence (st : TTLedger) (key : String) : Option (Nat × TTEssence) :=
  (List.range st.essences.length).findSome? fun i =>
    match st.records.getD i none, st.essences.getD i none with
    | some r, some e => if r.service = some key then some (i, e) else none
    | _, _ => none

/-- Modelled from the spec: `update_record(id, partial)` "shallow-merges
into the record; fails if slot empty".  The source metaclass calls
`ledger.update_record(instance.id, {'service': service_name})` but the
method body is not in the source tree; only the `service` merge it needs
is modelled. -/
def updateRecordService (st : TTLedger) (i : Nat) (key : String) : Except String TTLedger :=
  match st.records.getD i none with
  | some r =>
      .ok { st with records := st.records.set i (some { r with service := some key }) }
  | none => .error "record slot empty"

/-- `__ttEssenceMeta.__call__`: routing between the standard construction
path and the service (singleton) path.  `sname` is the service key from
the `service` kwarg or the `_tt_is_service` class attribute; `ctxId` the
`context` kwarg resolved to a ledger slot index; `rec`/`ess` the staging
record and instance state a fresh `__init__` would produce.  Returns the
new ledger, the id of the returned instance, and whether the full
`__init__` + `_init_post_action` path ran. -/
def ttEssenceCall (st : TTLedger) (sname : Option String) (ctxId : Option Nat)
    (rec : TTRecord) (ess : TTEssence) : Except String (TTLedger × Nat × Bool) :=
  match sname with
  | none =>
      .ok ((register st rec ess).1, (register st rec ess).2, true)
  | some key =>
      match getServiceEssence st key with
      | none =>
          match updateRecordService (register st rec { ess with serviceContext := [] }).1
              (register st rec { ess with serviceContext := [] }).2 key with
          | .ok st2 => .ok (st2, (register st rec { ess with serviceContext := [] }).2, true)
          | .error s => .error s
      | some (i, e) =>
          match ctxId with
          | none => .error "Context cant be None in service_context"
          | some c =>
              match getEssenceById st (c : Int) with
              | .ok (some _) =>
                  .ok ({ st with
                          essences := st.essences.set i
                            (some { e with serviceContext := e.serviceContext ++ [c] }) },
                       i, false)
              | _ => .error "Context cant be None in service_context"

/-- Number of live ledger slots whose record carries service key `key`
(the cardinality in invariant P2). -/
def liveWithKey (st : TTLedger) (key : String) : Nat :=
  (List.range st.essences.length).countP fun i =>
    ((st.records.getD i none).elim false fun r => r.service = some key) &&
      (st.essences.getD i none).isSome

/-- C10: for a negative id `n` (including `-1`, the id of a finished
essence) and a ledger with at least `|n|` slots, `get_essence_by_id`
does not hit the `id >= len` guard and does not return null: it returns
the occupant stored `|n|` positions from the end of the slot list. -/
theorem getEssenceById_negative (st : TTLedger) (n : Int) (e : TTEssence)
    (hn : n < 0) (hlen : (-n).toNat ≤ st.essences.length)
    (he : st.essences.getD (st.essences.length - (-n).toNat) none = some e) :
    getEssenceById st n = .ok (some e) := by
  have h1 : ¬ ((st.essences.length : Int) ≤ n) := by omega
  have h2 : ¬ (0 ≤ n) := by omega
  have h3 : -n ≤ (st.essences.length : Int) := by omega
  simp only [getEssenceById, pyIdx, if_neg h1, if_neg h2, if_pos h3, he]

/-- Witness for C10 at a one-slot ledger and id `-1`. -/
theorem getEssenceById_negative_witness :
    (-1 : Int) < 0 ∧
      getEssenceById ⟨[some ⟨"a", "ttEssence", -1, none⟩], [some ⟨"a", []⟩]⟩ (-1) =
        .ok (some ⟨"a", []⟩) :=
  ⟨by decide,
   getEssenceById_negative ⟨[some ⟨"a", "ttEssence", -1, none⟩], [some ⟨"a", []⟩]⟩
     (-1) ⟨"a", []⟩ (by decide) (by decide) (by decide)⟩

/-- C2 counterexample: a ledger whose slot 0 is already empty. The claim
says `unregister` returns silently for an in-range empty slot; the source
raises `RuntimeError` instead. -/
theorem unregister_empty_slot_raises :
    unregister ⟨[none], [none]⟩ 0 = .error "Id not found to unregister" := by
  rfl

/-- C2 amended: `unregister` raises for an in-range empty slot, for
`id = -1`, and for ids at or beyond the end of the slot list; it succeeds
exactly on in-range occupied slots, emptying both the record and the
essence slot and handing back the `-1` written into `essence.id`. -/
theorem unregister_semantics (st : TTLedger) (i : Nat) (hi : i < st.essences.length) :
    (st.essences.getD i none = none →
        unregister st (i : Int) = .error "Id not found to unregister") ∧
    (∀ e, st.essences.getD i none = some e →
        unregister st (i : Int) =
          .ok (⟨st.records.set i none, st.essences.set i none⟩, -1)) ∧
    (∀ j : Int, (st.essences.length : Int) ≤ j →
        unregister st j = .error "Id not found to unregister") ∧
    unregister st (-1) = .error "Id not found to unregister" := by
  have hne : ¬ ((i : Int) = -1) := by omega
  have hlt : ¬ ((st.essences.length : Int) ≤ (i : Int)) := by omega
  have h0 : (0 : Int) ≤ (i : Int) := by omega
  have h1 : (i : Int) < (st.essences.length : Int) := by omega
  have hids : pyIdx st.essences.length (i : Int) = some i := by
    simp only [pyIdx, if_pos h0, if_pos h1, Int.toNat_natCast]
  refine ⟨?_, ?_, ?_, ?_⟩
  · intro hempty
    simp only [unregister, if_neg hne, if_neg hlt, hids, hempty]
  · intro e hocc
    simp only [unregister, if_neg hne, if_neg hlt, hids, hocc]
  · intro j hj
    have hjne : ¬ (j = -1) := by omega
    simp only [unregister, if_neg hjne, if_pos hj]
  · simp [unregister]

/-- Witness for C2 at a one-slot ledger holding an essence at slot 0. -/
theorem unregister_semantics_witness :
    (0 : Nat) < 1 ∧
      unregister ⟨[some ⟨"a", "ttEssence", -1, none⟩], [some ⟨"a", []⟩]⟩ ((0 : Nat) : Int) =
        .ok (⟨[none], [none]⟩, -1) :=
  ⟨by decide,
   (unregister_semantics ⟨[some ⟨"a", "ttEssence", -1, none⟩], [some ⟨"a", []⟩]⟩ 0
       (by decide)).2.1 ⟨"a", []⟩ (by decide)⟩

/-- C4 evaluation at the failing input: register an essence into an empty
ledger (slot 0 gets both the essence and its record), unregister it, then
register a second essence.  The second registration reuses slot 0 — the
lowest freed hole — but leaves `records[0] = None` instead of storing the
new staging record, because the reuse branch of `ttLedger.register` only
writes `self.essences[ess_id]`. -/
theorem register_reuse_skips_record :
    register ⟨[], []⟩ ⟨"e1", "ttEssence", -1, none⟩ ⟨"e1", []⟩ =
        (⟨[some ⟨"e1", "ttEssence", -1, none⟩], [some ⟨"e1", []⟩]⟩, 0) ∧
    unregister ⟨[some ⟨"e1", "ttEssence", -1, none⟩], [some ⟨"e1", []⟩]⟩ 0 =
        .ok (⟨[none], [none]⟩, -1) ∧
    register ⟨[none], [none]⟩ ⟨"e2", "ttEssence", -1, none⟩ ⟨"e2", []⟩ =
        (⟨[none], [some ⟨"e2", []⟩]⟩, 0) := by
  refine ⟨rfl, rfl, rfl⟩

theorem getD_append_lt {α : Type} (l : List (Option α)) (x : Option α) (j : Nat)
    (h : j < l.length) : (l ++ [x]).getD j none = l.getD j none := by
  simp only [List.getD_eq_getElem?_getD, List.getElem?_append_left h]

theorem getD_append_len {α : Type} (l : List (Option α)) (x : Option α) :
    (l ++ [x]).getD l.length none = x := by
  simp [List.getD_eq_getElem?_getD, List.getElem?_append_right (Nat.le_refl _)]

theorem getD_set_self {α : Type} (l : List (Option α)) (j : Nat) (x : Option α)
    (h : j < l.length) : (l.set j x).getD j none = x := by
  simp [List.getD_eq_getElem?_getD, List.getElem?_set_self, h]

theorem getD_set_ne {α : Type} (l : List (Option α)) (i j : Nat) (x : Option α)
    (h : i ≠ j) : (l.set i x).getD j none = l.getD j none := by
  simp [List.getD_eq_getElem?_getD, List.getElem?_set_ne h]

theorem findIdx_isNone_spec (l : List (Option TTEssence)) (i : Nat)
    (h : l.findIdx? Option.isNone = some i) :
    i < l.length ∧ l.getD i none = none := by
  rw [List.findIdx?_eq_some_iff_getElem] at h
  obtain ⟨hlt, hp, _⟩ := h
  refine ⟨hlt, ?_⟩
  rw [List.getD_eq_getElem?_getD, List.getElem?_eq_getElem hlt]
  simpa [Option.isNone_iff_eq_none] using hp

theorem getServiceEssence_spec (st : TTLedger) (key : String) (i : Nat) (e : TTEssence)
    (h : getServiceEssence st key = some (i, e)) :
    i < st.essences.length ∧ st.essences.getD i none = some e ∧
      ∃ r, st.records.getD i none = some r ∧ r.service = some key := by
  obtain ⟨a, ha, hf⟩ := List.exists_of_findSome?_eq_some h
  have hlt : a < st.essences.length := List.mem_range.mp ha
  cases hr : st.records.getD a none with
  | none => rw [hr] at hf; simp at hf
  | some r =>
      cases he : st.essences.getD a none with
      | none => rw [hr, he] at hf; simp at hf
      | some e2 =>
          rw [hr, he] at hf
          simp only at hf
          by_cases hs : r.service = some key
          · rw [if_pos hs] at hf
            obtain ⟨h1, h2⟩ := Prod.mk.injEq .. ▸ Option.some.injEq .. ▸ hf
            subst h1; subst h2
            exact ⟨hlt, he, r, hr, hs⟩
          · rw [if_neg hs] at hf
            exact absurd hf (by simp)

theorem liveWithKey_eq_zero (st : TTLedger) (key : String)
    (h : getServiceEssence st key = none) : liveWithKey st key = 0 := by
  rw [liveWithKey, List.countP_eq_zero]
  intro i hi
  have hf := List.findSome?_eq_none_iff.mp h i hi
  cases hr : st.records.getD i none with
  | none => simp [hr]
  | some r =>
      cases he : st.essences.getD i none with
      | none => simp [hr, he]
      | some e =>
          simp only [hr, he] at hf
          by_cases hs : r.service = some key
          · rw [if_pos hs] at hf; exact absurd hf (by simp)
          · simp [hr, he, hs]

theorem set_append_len {α : Type} (l : List α) (x y : α) :
    (l ++ [x]).set l.length y = l ++ [y] := by
  induction l with
  | nil => rfl
  | cons a as ih => simp only [List.cons_append, List.length_cons, List.set_cons_succ, ih]

theorem register_cases (st : TTLedger) (rec : TTRecord) (ess : TTEssence) :
    (∃ i, i < st.essences.length ∧ st.essences.getD i none = none ∧
        st.records.length = st.records.length ∧
        register st rec ess = ({ st with essences := st.essences.set i (some ess) }, i)) ∨
    register st rec ess =
        (⟨st.records ++ [some rec], st.essences ++ [some ess]⟩, st.essences.length) := by
  cases hidx : st.essences.findIdx? Option.isNone with
  | some i =>
      obtain ⟨h1, h2⟩ := findIdx_isNone_spec _ _ hidx
      exact Or.inl ⟨i, h1, h2, rfl, by simp [register, hidx]⟩
  | none => exact Or.inr (by simp [register, hidx])

theorem liveWithKey_set_essence (st : TTLedger) (i : Nat) (e2 : TTEssence) (key : String)
    (hi : i < st.essences.length)
    (h : (st.essences.getD i none).isSome = true ∨ st.records.getD i none = none) :
    liveWithKey { st with essences := st.essences.set i (some e2) } key =
      liveWithKey st key := by
  rw [liveWithKey, liveWithKey]
  have hlen2 : (st.essences.set i (some e2)).length = st.essences.length := by simp
  simp only [hlen2]
  apply List.countP_congr
  intro j hj
  by_cases hij : i = j
  · subst hij
    rw [getD_set_self _ _ _ hi]
    rcases h with hocc | hrecn
    · cases hx : st.essences.getD i none with
      | none => rw [hx] at hocc; simp at hocc
      | some y => simp
    · rw [hrecn]; simp
  · rw [getD_set_ne _ _ _ _ hij]

theorem liveWithKey_append (st : TTLedger) (r : TTRecord) (e : TTEssence) (key : String)
    (hlen : st.records.length = st.essences.length) :
    liveWithKey ⟨st.records ++ [some r], st.essences ++ [some e]⟩ key =
      liveWithKey st key + (if r.service = some key then 1 else 0) := by
  rw [liveWithKey, liveWithKey]
  simp only [List.length_append, List.length_cons, List.length_nil]
  rw [List.range_succ, List.countP_append]
  have hfirst :
      (List.range st.essences.length).countP (fun j =>
          (((st.records ++ [some r]).getD j none).elim false fun rr =>
              rr.service = some key) &&
            ((st.essences ++ [some e]).getD j none).isSome) =
        (List.range st.essences.length).countP (fun j =>
          ((st.records.getD j none).elim false fun rr => rr.service = some key) &&
            (st.essences.getD j none).isSome) := by
    apply List.countP_congr
    intro j hj
    have hj2 : j < st.essences.length := List.mem_range.mp hj
    rw [getD_append_lt _ _ _ hj2, getD_append_lt _ _ _ (hlen ▸ hj2)]
  rw [hfirst]
  have hrecl : (st.records ++ [some r]).getD st.essences.length none = some r := by
    rw [← hlen]; exact getD_append_len _ _
  have hessl : (st.essences ++ [some e]).getD st.essences.length none = some e :=
    getD_append_len _ _
  simp only [List.countP_cons, List.countP_nil, hrecl, hessl, Option.elim_some,
    Option.isSome_some, Bool.and_true]
  by_cases hs : r.service = some key
  · simp [hs]
  · simp [hs]

/-- C1: the metaclass service path keeps service keys unique and routes
later construction requests to the existing instance.  For a ledger with
parallel record/essence lists, clean holes and a fresh staging record
with no service key: (1) every successful construction preserves "at
most one live entity per service key" (invariant P2); (2) when a live
entity with the requested key exists, the call returns its id, skips the
full init path, leaves the records untouched and appends the requesting
context to that instance's `service_context` list; (3) when none exists,
the full `__init__` + `_init_post_action` path runs. -/
theorem ttEssenceCall_service (st : TTLedger) (sname : Option String) (ctxId : Option Nat)
    (rec : TTRecord) (ess : TTEssence)
    (hlen : st.records.length = st.essences.length)
    (hwf : ∀ i, i < st.essences.length →
        st.essences.getD i none = none → st.records.getD i none = none)
    (hrec : rec.service = none) :
    (∀ st2 j b, ttEssenceCall st sname ctxId rec ess = .ok (st2, j, b) →
        ∀ key, liveWithKey st key ≤ 1 → liveWithKey st2 key ≤ 1) ∧
    (∀ key i e c, sname = some key → getServiceEssence st key = some (i, e) →
        ctxId = some c →
        ∀ st2 j b, ttEssenceCall st sname ctxId rec ess = .ok (st2, j, b) →
          j = i ∧ b = false ∧ st2.records = st.records ∧
            st2.essences = st.essences.set i
              (some { e with serviceContext := e.serviceContext ++ [c] })) ∧
    (∀ key, sname = some key → getServiceEssence st key = none →
        ∀ st2 j b, ttEssenceCall st sname ctxId rec ess = .ok (st2, j, b) → b = true) := by
  refine ⟨?_, ?_, ?_⟩
  · intro st2 j b h key hk
    cases sname with
    | none =>
        simp only [ttEssenceCall, Except.ok.injEq, Prod.mk.injEq] at h
        obtain ⟨h1, h2, h3⟩ := h
        subst h1
        rcases register_cases st rec ess with ⟨i, hi, hempty, -, hreg⟩ | hreg
        · rw [hreg]
          rw [liveWithKey_set_essence st i ess key hi (Or.inr (hwf i hi hempty))]
          exact hk
        · rw [hreg]
          rw [liveWithKey_append st rec ess key hlen]
          simp only [hrec]
          simpa using hk
    | some key0 =>
        cases hga : getServiceEssence st key0 with
        | some pe =>
            obtain ⟨i, e⟩ := pe
            obtain ⟨hi, he, r, hr, hrs⟩ := getServiceEssence_spec st key0 i e hga
            cases ctxId with
            | none => simp [ttEssenceCall, hga] at h
            | some c =>
                simp only [ttEssenceCall, hga] at h
                cases hge : getEssenceById st (c : Int) with
                | error s => rw [hge] at h; simp at h
                | ok o =>
                    cases o with
                    | none => rw [hge] at h; simp at h
                    | some x =>
                        rw [hge] at h
                        simp only [Except.ok.injEq, Prod.mk.injEq] at h
                        obtain ⟨h1, h2, h3⟩ := h
                        subst h1
                        rw [liveWithKey_set_essence st i _ key hi
                          (Or.inl (by rw [he]; rfl))]
                        exact hk
        | none =>
            simp only [ttEssenceCall, hga] at h
            rcases register_cases st rec { ess with serviceContext := [] } with
              ⟨i, hi, hempty, -, hreg⟩ | hreg
            · rw [hreg] at h
              have hrn := hwf i hi hempty
              rw [List.getD_eq_getElem?_getD] at hrn
              simp [updateRecordService, hrn] at h
            · rw [hreg] at h
              have hgd : (st.records ++ [some rec]).getD st.essences.length none =
                  some rec := by
                rw [← hlen]; exact getD_append_len _ _
              simp only [updateRecordService, hgd, Except.ok.injEq, Prod.mk.injEq] at h
              obtain ⟨h1, h2, h3⟩ := h
              subst h1
              have hset : (st.records ++ [some rec]).set st.essences.length
                  (some { rec with service := some key0 }) =
                    st.records ++ [some { rec with service := some key0 }] := by
                rw [← hlen]; exact set_append_len _ _ _
              simp only [hset]
              rw [liveWithKey_append st { rec with service := some key0 }
                { ess with serviceContext := [] } key hlen]
              have hz : liveWithKey st key0 = 0 := liveWithKey_eq_zero st key0 hga
              by_cases hkey : key0 = key
              · subst hkey; rw [hz]; simp
              · simp only [Option.some.injEq]
                rw [if_neg hkey]
                simpa using hk
  · intro key i e c hs hga hc st2 j b h
    subst hs; subst hc
    simp only [ttEssenceCall, hga] at h
    cases hge : getEssenceById st (c : Int) with
    | error s => rw [hge] at h; simp at h
    | ok o =>
        cases o with
        | none => rw [hge] at h; simp at h
        | some x =>
            rw [hge] at h
            simp only [Except.ok.injEq, Prod.mk.injEq] at h
            obtain ⟨h1, h2, h3⟩ := h
            subst h1; subst h2; subst h3
            exact ⟨rfl, rfl, rfl, rfl⟩
  · intro key hs hga st2 j b h
    subst hs
    simp only [ttEssenceCall, hga] at h
    rcases register_cases st rec { ess with serviceContext := [] } with
      ⟨i, hi, hempty, -, hreg⟩ | hreg
    · rw [hreg] at h
      have hrn := hwf i hi hempty
      rw [List.getD_eq_getElem?_getD] at hrn
      simp [updateRecordService, hrn] at h
    · rw [hreg] at h
      have hgd : (st.records ++ [some rec]).getD st.essences.length none = some rec := by
        rw [← hlen]; exact getD_append_len _ _
      simp only [updateRecordService, hgd, Except.ok.injEq, Prod.mk.injEq] at h
      exact h.2.2.symm

/-- Concrete ledger for the C1 witness: slot 0 a plain context essence,
slot 1 a live service with key "S". -/
def stW : TTLedger :=
  ⟨[some ⟨"ctx", "ttEssence", -1, none⟩, some ⟨"S", "ttStore", -1, some "S"⟩],
   [some ⟨"ctx", []⟩, some ⟨"S", []⟩]⟩

/-- Staging record for the C1 witness construction request. -/
def recW : TTRecord := ⟨"S", "ttStore", -1, none⟩

/-- Staging instance state for the C1 witness construction request. -/
def essW : TTEssence := ⟨"S", []⟩

/-- Witness for C1 at `stW`: hypotheses hold and the existing-service
conjunct applies to a second construction request for key "S". -/
theorem ttEssenceCall_service_witness :
    stW.records.length = stW.essences.length ∧
    recW.service = none ∧
    (∀ key i e c, (some "S" : Option String) = some key →
        getServiceEssence stW key = some (i, e) → (some 0 : Option Nat) = some c →
        ∀ st2 j b, ttEssenceCall stW (some "S") (some 0) recW essW = .ok (st2, j, b) →
          j = i ∧ b = false ∧ st2.records = stW.records ∧
            st2.essences = stW.essences.set i
              (some { e with serviceContext := e.serviceContext ++ [c] })) :=
  ⟨by decide, by decide,
   (ttEssenceCall_service stW (some "S") (some 0) recW essW
       (by decide) (by decide) (by decide)).2.1⟩

/-- A catalyst work item abstracted for the extra-sparkles drain: `sid`
is the trace entry its execution logs, `extras` the follow-ups its body
schedules through `ttCatalyst._execute_extra_sparkle` (which appends to
`self.extra_sparkles`). -/
inductive SparkleSpec : Type where
  | mk (sid : Nat) (extras : List SparkleSpec)
  deriving Repr

/-- Trace entry of a work item. -/
def SparkleSpec.sid : SparkleSpec → Nat
  | .mk i _ => i

/-- Extra sparkles scheduled by a work item. -/
def SparkleSpec.extraList : SparkleSpec → List SparkleSpec
  | .mk _ l => l

/-- Combined size measure for the drain loop termination. -/
def szList : List SparkleSpec → Nat
  | [] => 0
  | .mk _ ex :: xs => 1 + szList ex + szList xs

theorem szList_append (a b : List SparkleSpec) :
    szList (a ++ b) = szList a + szList b := by
  induction a with
  | nil => simp [szList]
  | cons x xs ih => cases x with | mk i ex => simp [szList, ih]; omega

/-- The `while self.extra_sparkles:` drain loop of `ttCatalyst.sparkle`:
repeatedly `pop(0)` the front entry and execute it (an execution may
append further extras).  Returns the order in which entries execute. -/
def execDrain : List SparkleSpec → List Nat
  | [] => []
  | .mk i ex :: rest => i :: execDrain (rest ++ ex)
  termination_by l => szList l
  decreasing_by simp [szList_append, szList]; omega

/-- One iteration of the `ttCatalyst.sparkle` loop after a work item is
dequeued: execute the item, then drain the extra-sparkles list. -/
def dispatchStep : SparkleSpec → List Nat
  | .mk i ex => i :: execDrain ex

/-- C3 counterexample: a dequeued item schedules extra sparkles 1 then 2;
the drain runs them in scheduling order `[1, 2]` (FIFO, `pop(0)` from the
front), not in the claimed LIFO order `[2, 1]`. -/
theorem dispatchStep_lifo_cex :
    dispatchStep (.mk 0 [.mk 1 [], .mk 2 []]) = [0, 1, 2] ∧
      ([0, 1, 2] : List Nat) ≠ [0, 2, 1] := by
  constructor
  · simp [dispatchStep, execDrain]
  · decide

theorem execDrain_flat (l : List SparkleSpec) (h : ∀ s ∈ l, s.extraList = []) :
    execDrain l = l.map SparkleSpec.sid := by
  induction l with
  | nil => simp [execDrain]
  | cons x xs ih =>
      cases x with
      | mk j ex =>
          have hx : ex = [] := h (.mk j ex) (List.mem_cons_self _ _)
          subst hx
          rw [execDrain]
          rw [List.append_nil]
          simp only [List.map_cons, SparkleSpec.sid]
          rw [ih fun s hs => h s (List.mem_cons_of_mem _ hs)]

/-- C3 amended: the extra-sparkles entries accumulated while a dequeued
work item executes are drained in FIFO order — the earliest scheduled
extra sparkle runs first (here for extras that schedule no further
extras, as the state-transition extras do). -/
theorem dispatchStep_fifo (i : Nat) (ex : List SparkleSpec)
    (h : ∀ s ∈ ex, s.extraList = []) :
    dispatchStep (.mk i ex) = i :: ex.map SparkleSpec.sid := by
  simp only [dispatchStep]
  rw [execDrain_flat ex h]

/-- Witness for C3 (amended) at an item scheduling extras 1 then 2. -/
theorem dispatchStep_fifo_witness :
    (∀ s ∈ [SparkleSpec.mk 1 [], SparkleSpec.mk 2 []], s.extraList = []) ∧
      dispatchStep (.mk 0 [.mk 1 [], .mk 2 []]) = [0, 1, 2] := by
  have hflat : ∀ s ∈ [SparkleSpec.mk 1 [], SparkleSpec.mk 2 []], s.extraList = [] := by
    intro s hs
    rcases List.mem_cons.mp hs with rfl | hs2
    · rfl
    · rcases List.mem_cons.mp hs2 with rfl | hs3
      · rfl
      · cases hs3
  exact ⟨hflat, dispatchStep_fifo 0 [SparkleSpec.mk 1 [], SparkleSpec.mk 2 []] hflat⟩

/-- Trace events of a tonic: a queued sparkle being dispatched, the
`ttse__on_exit` handler running (with the state it sees), the internal
state assignment, and the `ttse__on_enter` handler running. -/
inductive TonicEvent : Type where
  | dispatched (uid : Nat)
  | exited (s : Int)
  | assigned (old tgt : Int)
  | entered (s : Int)
  deriving Repr, DecidableEq

/-- The four kinds of extra sparkles `ttTonic.to_state` schedules:
`_direct_execute_ttse__on_exit`, `_ttinternal_state_change_to`,
`_direct_execute_ttse__on_enter`, `_ttinternal_state_machine_stop`. -/
inductive ExtraAct : Type where
  | onExit
  | changeTo (t : Nat)
  | onEnter
  | stop
  deriving Repr, DecidableEq

/-- `ttTonic.to_state(state)` for an integer target: the extra sparkles
it appends, in order, via `self.catalyst._execute_extra_sparkle`.  A
valid index schedules exit (when the machine is active), the internal
state change and enter; `-1` schedules exit (when active) and the stop;
any other integer schedules nothing (the early `return`). -/
def toStateExtras (numStates : Nat) (cur : Int) (target : Int) : List ExtraAct :=
  if 0 ≤ target ∧ target < (numStates : Int) then
    (if cur ≠ -1 then [ExtraAct.onExit] else []) ++
      [ExtraAct.changeTo target.toNat, ExtraAct.onEnter]
  else if target = -1 then
    (if cur ≠ -1 then [ExtraAct.onExit] else []) ++ [ExtraAct.stop]
  else []

/-- Executing one drained extra sparkle against the tonic state: the
direct-execute exit/enter handlers look up the handler for the *current*
state at run time (abstracted as the emitted event);
`_ttinternal_state_change_to` assigns the state and
`_ttinternal_state_machine_stop` sets it to `-1`. -/
def execAct (s : Int) : ExtraAct → Int × TonicEvent
  | .onExit => (s, .exited s)
  | .changeTo t => ((t : Int), .assigned s (t : Int))
  | .onEnter => (s, .entered s)
  | .stop => (-1, .assigned s (-1))

/-- Draining a list of extra sparkles in order (the `pop(0)` loop),
threading the tonic state and collecting the trace. -/
def execActs : List ExtraAct → Int → Int × List TonicEvent
  | [], s => (s, [])
  | a :: rest, s =>
      ((execActs rest (execAct s a).1).1,
        (execAct s a).2 :: (execActs rest (execAct s a).1).2)

/-- A queued work item for one tonic: a user sparkle whose body calls
`to_state(target)`, or a user sparkle that does not transition. -/
inductive QItem : Type where
  | toStateCall (uid : Nat) (target : Int)
  | user (uid : Nat)
  deriving Repr, DecidableEq

/-- The `ttCatalyst.sparkle` loop for one tonic: dequeue an item, execute
it (a `to_state` call appends its extra sparkles), then drain the extra
sparkles before the next dequeue.  Returns the final machine state and
the event trace. -/
def runQueue (numStates : Nat) : List QItem → Int → Int × List TonicEvent
  | [], s => (s, [])
  | .user u :: rest, s =>
      ((runQueue numStates rest s).1, .dispatched u :: (runQueue numStates rest s).2)
  | .toStateCall u t :: rest, s =>
      ((runQueue numStates rest (execActs (toStateExtras numStates s t) s).1).1,
        .dispatched u ::
          ((execActs (toStateExtras numStates s t) s).2 ++
            (runQueue numStates rest (execActs (toStateExtras numStates s t) s).1).2))

/-- C5: a `to_state(x)` issued by a queued sparkle runs, before the next
queued item and with nothing else interleaved, exactly `on_exit` at the
old state, the internal assignment to `x`, and `on_enter` at `x`; when
the machine is inactive (state `-1`) the `on_exit` step is omitted. -/
theorem to_state_atomic (numStates : Nat) (s : Int) (x u v : Nat) (rest : List QItem)
    (hx : x < numStates) :
    (s ≠ -1 →
      runQueue numStates (.toStateCall u (x : Int) :: .user v :: rest) s =
        ((runQueue numStates rest (x : Int)).1,
          .dispatched u :: .exited s :: .assigned s (x : Int) :: .entered (x : Int) ::
            .dispatched v :: (runQueue numStates rest (x : Int)).2)) ∧
    (s = -1 →
      runQueue numStates (.toStateCall u (x : Int) :: .user v :: rest) s =
        ((runQueue numStates rest (x : Int)).1,
          .dispatched u :: .assigned s (x : Int) :: .entered (x : Int) ::
            .dispatched v :: (runQueue numStates rest (x : Int)).2)) := by
  have hvalid : 0 ≤ (x : Int) ∧ (x : Int) < (numStates : Int) := by omega
  constructor
  · intro hs
    simp [runQueue, toStateExtras, hvalid, hs, execActs, execAct, Int.toNat_natCast]
  · intro hs
    subst hs
    simp [runQueue, toStateExtras, hvalid, execActs, execAct, Int.toNat_natCast]

/-- Witness for C5: two states, machine active in state 1, transition to
state 0 followed by a further user sparkle. -/
theorem to_state_atomic_witness :
    (0 : Nat) < 2 ∧
      runQueue 2 [.toStateCall 7 ((0 : Nat) : Int), .user 8] 1 =
        ((runQueue 2 [] ((0 : Nat) : Int)).1,
          .dispatched 7 :: .exited 1 :: .assigned 1 ((0 : Nat) : Int) ::
            .entered ((0 : Nat) : Int) :: .dispatched 8 ::
              (runQueue 2 [] ((0 : Nat) : Int)).2) :=
  ⟨by decide, (to_state_atomic 2 1 0 7 8 [] (by decide)).1 (by decide)⟩

/-- A store path: the slash-separated segments of a normalized path
string (`""` ↦ `[]`, `"a/b"` ↦ `["a", "b"]`). -/
abbrev Path := List String

/-- One `_storage` entry of `internals/Store.py`: the node's value and
its set of direct child segment names (kept in insertion order). -/
structure SNode where
  val : Option Nat := none
  children : List String := []
  deriving Repr, DecidableEq

/-- The `Store._storage` dict, as an association list with unique keys. -/
abbrev Storage := List (Path × SNode)

/-- Dict lookup `self._storage.get(path)`. -/
def getNode : Storage → Path → Option SNode
  | [], _ => none
  | (q, n) :: rest, p => if q = p then some n else getNode rest p

/-- Dict assignment `self._storage[path] = node` (update in place, or
append a new entry). -/
def setNode : Storage → Path → SNode → Storage
  | [], p, n => [(p, n)]
  | (q, m) :: rest, p, n => if q = p then (p, n) :: rest else (q, m) :: setNode rest p n

/-- Dict deletion `del self._storage[path]`. -/
def delNode : Storage → Path → Storage
  | [], _ => []
  | (q, m) :: rest, p => if q = p then rest else (q, m) :: delNode rest p

/-- The loop body of `Store._ensure_node`: walk the prefixes of the
remaining segments, inserting a fresh `{"val": None, "children": set()}`
node for each missing prefix and adding the segment to its parent's
children set. -/
def ensureGo : Storage → Path → List String → Storage
  | σ, _, [] => σ
  | σ, pre, s :: rest =>
      let cur := pre ++ [s]
      let σ2 :=
        match getNode σ cur with
        | some _ => σ
        | none =>
            let σ1 := setNode σ cur ⟨none, []⟩
            match getNode σ1 pre with
            | some pn =>
                if s ∈ pn.children then σ1
                else setNode σ1 pre { pn with children := pn.children ++ [s] }
            | none => σ1
      ensureGo σ2 cur rest

/-- `Store._ensure_node(path)`. -/
def ensureNode (σ : Storage) (p : Path) : Storage := ensureGo σ [] p

/-- A store change event `(path, new_value, old_value)` (the source tag
is not involved in the claims about `remove`/`append`). -/
abbrev SEvent := Path × Option Nat × Option Nat

/-- `Store.set_value(path, value)`: update the entry (creating missing
ancestors first), and report the change event the source would queue
when `old != value` (`none` when no event is queued).  The unreachable
inner `none` branch corresponds to the `KeyError` a deleted root would
raise. -/
def setValue (σ : Storage) (p : Path) (v : Option Nat) : Storage × Option SEvent :=
  match getNode σ p with
  | some entry =>
      (setNode σ p { entry with val := v },
        if entry.val ≠ v then some (p, v, entry.val) else none)
  | none =>
      match getNode (ensureNode σ p) p with
      | some entry =>
          (setNode (ensureNode σ p) p { entry with val := v },
            if entry.val ≠ v then some (p, v, entry.val) else none)
      | none => (ensureNode σ p, none)

/-- Decimal value of a digit string (the `int(...)` of the regex group). -/
def decDigits (ds : List Char) : Nat :=
  ds.foldl (fun a c => a * 10 + (c.toNat - 48)) 0

/-- The regex match `^(prefix)?#(\d+)$` of `Store.create_list_item`:
returns the numeral when `key` is the prefix, a `#`, and a nonempty run
of digits. -/
def matchIdx (pref : Option String) (key : String) : Option Nat :=
  if (((pref.getD "") ++ "#").toList).isPrefixOf key.toList then
    (if key.toList.drop (((pref.getD "") ++ "#").toList).length ≠ [] ∧
        (key.toList.drop (((pref.getD "") ++ "#").toList).length).all Char.isDigit then
      some (decDigits (key.toList.drop (((pref.getD "") ++ "#").toList).length))
    else none)
  else none

/-- The `max_idx` fold of `Store.create_list_item` over the children. -/
def foldIdx (pref : Option String) (children : List String) (m : Int) : Int :=
  children.foldl (fun acc c =>
    match matchIdx pref c with
    | some k => if (k : Int) > acc then (k : Int) else acc
    | none => acc) m

/-- `Store.create_list_item(base_path, prefix)`: ensure the base node,
scan its children for the largest `(prefix)?#<digits>` index, create the
child `(prefix)?#<max+1>` with a null value and return its path. -/
def createListItem (σ : Storage) (base : Path) (pref : Option String) : Storage × Path :=
  ((setValue
      (match getNode σ base with | some _ => σ | none => ensureNode σ base)
      (base ++ [(pref.getD "") ++ "#" ++
        toString (foldIdx pref
          ((getNode (match getNode σ base with
              | some _ => σ
              | none => ensureNode σ base) base).getD ⟨none, []⟩).children (-1) + 1)])
      none).1,
   base ++ [(pref.getD "") ++ "#" ++
     toString (foldIdx pref
       ((getNode (match getNode σ base with
           | some _ => σ
           | none => ensureNode σ base) base).getD ⟨none, []⟩).children (-1) + 1)])

theorem getNode_setNode_self (σ : Storage) (p : Path) (n : SNode) :
    getNode (setNode σ p n) p = some n := by
  induction σ with
  | nil => simp [setNode, getNode]
  | cons e rest ih =>
      obtain ⟨q, m⟩ := e
      by_cases h : q = p
      · simp [setNode, getNode, h]
      · simp [setNode, getNode, h, ih]

theorem getNode_setNode_ne (σ : Storage) (p q : Path) (n : SNode) (h : q ≠ p) :
    getNode (setNode σ p n) q = getNode σ q := by
  induction σ with
  | nil =>
      simp only [setNode, getNode]
      rw [if_neg fun hh => h hh.symm]
  | cons e rest ih =>
      obtain ⟨r, m⟩ := e
      by_cases hr : r = p
      · subst hr
        simp only [setNode, if_pos rfl, getNode]
        rw [if_neg fun hh => h hh.symm, if_neg fun hh => h hh.symm]
      · simp only [setNode, if_neg hr, getNode]
        by_cases hq : r = q
        · simp [hq]
        · simp [hq, ih]

theorem foldIdx_ge (pref : Option String) (l : List String) (m : Int) :
    m ≤ foldIdx pref l m := by
  induction l generalizing m with
  | nil => simp [foldIdx]
  | cons c cs ih =>
      simp only [foldIdx, List.foldl_cons]
      cases hc : matchIdx pref c with
      | none => exact ih m
      | some k =>
          by_cases hk : (k : Int) > m
          · simp only [if_pos hk]
            exact le_trans (le_of_lt hk) (ih _)
          · simp only [if_neg hk]
            exact ih m

theorem le_foldIdx (pref : Option String) (l : List String) (m : Int) (c : String) (k : Nat)
    (hc : c ∈ l) (hk : matchIdx pref c = some k) : (k : Int) ≤ foldIdx pref l m := by
  induction l generalizing m with
  | nil => cases hc
  | cons x xs ih =>
      rcases List.mem_cons.mp hc with rfl | hmem
      · simp only [foldIdx, List.foldl_cons, hk]
        by_cases hgt : (k : Int) > m
        · simp only [if_pos hgt]
          exact foldIdx_ge pref xs _
        · simp only [if_neg hgt]
          exact le_trans (not_lt.mp hgt) (foldIdx_ge pref xs m)
      · simp only [foldIdx, List.foldl_cons]
        cases hx : matchIdx pref x with
        | none => exact ih _ hmem
        | some j =>
            by_cases hgt : (j : Int) > m
            · simp only [if_pos hgt]; exact ih _ hmem
            · simp only [if_neg hgt]; exact ih _ hmem

theorem foldIdx_le (pref : Option String) (l : List String) (m k : Int)
    (h : ∀ c ∈ l, ∀ j : Nat, matchIdx pref c = some j → (j : Int) ≤ k) (hm : m ≤ k) :
    foldIdx pref l m ≤ k := by
  induction l generalizing m with
  | nil => simpa [foldIdx] using hm
  | cons x xs ih =>
      simp only [foldIdx, List.foldl_cons]
      cases hx : matchIdx pref x with
      | none => exact ih m (fun c hc => h c (List.mem_cons_of_mem _ hc)) hm
      | some j =>
          by_cases hgt : (j : Int) > m
          · simp only [if_pos hgt]
            exact ih _ (fun c hc => h c (List.mem_cons_of_mem _ hc))
              (h x (List.mem_cons_self _ _) j hx)
          · simp only [if_neg hgt]
            exact ih m (fun c hc => h c (List.mem_cons_of_mem _ hc)) hm

theorem foldIdx_none (pref : Option String) (l : List String) (m : Int)
    (h : ∀ c ∈ l, matchIdx pref c = none) : foldIdx pref l m = m := by
  induction l with
  | nil => rfl
  | cons x xs ih =>
      simp only [foldIdx, List.foldl_cons, h x (List.mem_cons_self _ _)]
      exact ih fun c hc => h c (List.mem_cons_of_mem _ hc)

theorem ensureGo_snoc (mid : List String) (σ : Storage) (pre : Path) (k : String) (pn : SNode)
    (hpres : ∀ i, i ≤ mid.length → getNode σ (pre ++ mid.take i) ≠ none)
    (hpar : getNode σ (pre ++ mid) = some pn)
    (habs : getNode σ (pre ++ (mid ++ [k])) = none)
    (hk : k ∉ pn.children) :
    ensureGo σ pre (mid ++ [k]) =
      setNode (setNode σ (pre ++ (mid ++ [k])) ⟨none, []⟩) (pre ++ mid)
        { pn with children := pn.children ++ [k] } := by
  induction mid generalizing σ pre with
  | nil =>
      simp only [List.nil_append, List.append_nil] at hpar habs ⊢
      have hne : pre ≠ pre ++ [k] := by
        intro hcontra
        have := congrArg List.length hcontra
        simp at this
      simp only [ensureGo, habs, getNode_setNode_ne σ (pre ++ [k]) pre ⟨none, []⟩ hne,
        hpar, if_neg hk]
  | cons s mid' ih =>
      have hpres1 : getNode σ (pre ++ [s]) ≠ none := by
        have h2 := hpres 1 (by simp)
        simpa using h2
      rw [List.cons_append, ensureGo]
      cases hg : getNode σ (pre ++ [s]) with
      | none => exact absurd hg hpres1
      | some cn =>
          simp only [hg]
          have heq1 : ∀ t : List String, pre ++ s :: t = (pre ++ [s]) ++ t := by
            intro t; simp
          have e1 : ensureGo σ (pre ++ [s]) (mid' ++ [k]) =
              setNode (setNode σ ((pre ++ [s]) ++ (mid' ++ [k])) ⟨none, []⟩)
                ((pre ++ [s]) ++ mid')
                { pn with children := pn.children ++ [k] } :=
            ih σ (pre ++ [s])
              (fun i hi => by
                have h2 := hpres (i + 1) (Nat.succ_le_succ hi)
                rw [List.take_succ_cons, heq1 (mid'.take i)] at h2
                exact h2)
              (by rw [← heq1 mid']; exact hpar)
              (by rw [← heq1 (mid' ++ [k])]; exact habs)
          rw [e1, ← heq1 (mid' ++ [k]), ← heq1 mid']

/-- C8: `create_list_item` at a present base node whose matching children
have largest index `k` (described by `mx`: `some k` when a match exists,
`none` otherwise) creates the child `(prefix)?#<k+1>` — index `0` when no
child matches — with a null value, links it into the base's children set
and returns its path. -/
theorem createListItem_spec (σ : Storage) (base : Path) (pref : Option String)
    (bn : SNode) (mx : Option Nat)
    (hbase : getNode σ base = some bn)
    (hanc : ∀ i, i ≤ base.length → getNode σ (base.take i) ≠ none)
    (hmax : ∀ c ∈ bn.children, ∀ j : Nat, matchIdx pref c = some j →
        ∃ k, mx = some k ∧ j ≤ k)
    (hwit : ∀ k, mx = some k → ∃ c ∈ bn.children, matchIdx pref c = some k)
    (hnew : getNode σ
        (base ++ [(pref.getD "") ++ "#" ++
          toString (match mx with | some k => k + 1 | none => 0)]) = none)
    (hknot : ((pref.getD "") ++ "#" ++
        toString (match mx with | some k => k + 1 | none => 0)) ∉ bn.children) :
    (createListItem σ base pref).2 =
        base ++ [(pref.getD "") ++ "#" ++
          toString (match mx with | some k => k + 1 | none => 0)] ∧
    getNode (createListItem σ base pref).1
        (base ++ [(pref.getD "") ++ "#" ++
          toString (match mx with | some k => k + 1 | none => 0)]) =
      some ⟨none, []⟩ ∧
    (∃ bn2, getNode (createListItem σ base pref).1 base = some bn2 ∧
        ((pref.getD "") ++ "#" ++
          toString (match mx with | some k => k + 1 | none => 0)) ∈ bn2.children) := by
  have hfold : foldIdx pref bn.children (-1) =
      (match mx with | some k => (k : Int) | none => -1) := by
    cases mx with
    | none =>
        exact foldIdx_none pref bn.children (-1) fun c hc => by
          cases hmc : matchIdx pref c with
          | none => rfl
          | some j =>
              obtain ⟨k, hk, -⟩ := hmax c hc j hmc
              cases hk
    | some k =>
        obtain ⟨c0, hc0, hm0⟩ := hwit k rfl
        apply le_antisymm
        · refine foldIdx_le pref bn.children (-1) (k : Int) ?_ (by omega)
          intro c hc j hmc
          obtain ⟨k2, hk2, hjk⟩ := hmax c hc j hmc
          have hkk : k = k2 := Option.some.inj hk2
          omega
        · exact le_foldIdx pref bn.children (-1) c0 k hc0 hm0
  have hkey : toString (foldIdx pref bn.children (-1) + 1) =
      toString (match mx with | some k => k + 1 | none => 0) := by
    rw [hfold]
    cases mx with
    | none =>
        have h0 : (-1 + 1 : Int) = ((0 : Nat) : Int) := by omega
        rw [h0]; rfl
    | some k =>
        have h1 : ((k : Int) + 1) = ((k + 1 : Nat) : Int) := by omega
        rw [h1]; rfl
  have hens : ensureNode σ
      (base ++ [(pref.getD "") ++ "#" ++
        toString (match mx with | some k => k + 1 | none => 0)]) =
      setNode
        (setNode σ
          (base ++ [(pref.getD "") ++ "#" ++
            toString (match mx with | some k => k + 1 | none => 0)]) ⟨none, []⟩)
        base { bn with children := bn.children ++
          [(pref.getD "") ++ "#" ++
            toString (match mx with | some k => k + 1 | none => 0)] } := by
    have := ensureGo_snoc base σ []
      ((pref.getD "") ++ "#" ++ toString (match mx with | some k => k + 1 | none => 0))
      bn
      (fun i hi => by simpa using hanc i hi)
      (by simpa using hbase)
      (by simpa using hnew)
      hknot
    simpa [ensureNode] using this
  have hneq : base ≠ base ++ [(pref.getD "") ++ "#" ++
      toString (match mx with | some k => k + 1 | none => 0)] := by
    intro hcontra
    have := congrArg List.length hcontra
    simp at this
  have hresult : createListItem σ base pref =
      ((setValue σ
          (base ++ [(pref.getD "") ++ "#" ++
            toString (match mx with | some k => k + 1 | none => 0)]) none).1,
        base ++ [(pref.getD "") ++ "#" ++
          toString (match mx with | some k => k + 1 | none => 0)]) := by
    simp only [createListItem, hbase, Option.getD_some, hkey]
  have hEnode : getNode (ensureNode σ
      (base ++ [(pref.getD "") ++ "#" ++
        toString (match mx with | some k => k + 1 | none => 0)]))
      (base ++ [(pref.getD "") ++ "#" ++
        toString (match mx with | some k => k + 1 | none => 0)]) = some ⟨none, []⟩ := by
    rw [hens, getNode_setNode_ne _ _ _ _ hneq.symm, getNode_setNode_self]
  have hsv : (setValue σ
      (base ++ [(pref.getD "") ++ "#" ++
        toString (match mx with | some k => k + 1 | none => 0)]) none).1 =
      setNode (ensureNode σ
        (base ++ [(pref.getD "") ++ "#" ++
          toString (match mx with | some k => k + 1 | none => 0)]))
        (base ++ [(pref.getD "") ++ "#" ++
          toString (match mx with | some k => k + 1 | none => 0)]) ⟨none, []⟩ := by
    simp only [setValue, hnew, hEnode]
  refine ⟨by rw [hresult], ?_, ?_⟩
  · rw [hresult]
    simp only
    rw [hsv, getNode_setNode_self]
  · rw [hresult]
    simp only
    rw [hsv, getNode_setNode_ne _ _ _ _ hneq, hens,
      getNode_setNode_self]
    exact ⟨_, rfl, List.mem_append_right _ (List.mem_singleton.mpr rfl)⟩

/-- Witness for C8: base `logs` (here the root) with an existing child
`#5`; `append` returns `#6` with a null value, linked into the children. -/
theorem createListItem_spec_witness :
    (createListItem [([], ⟨none, ["#5"]⟩), (["#5"], ⟨some 1, []⟩)] [] none).2 = ["#6"] ∧
    getNode (createListItem [([], ⟨none, ["#5"]⟩), (["#5"], ⟨some 1, []⟩)] [] none).1
        ["#6"] = some ⟨none, []⟩ ∧
    (∃ bn2, getNode (createListItem [([], ⟨none, ["#5"]⟩), (["#5"], ⟨some 1, []⟩)] [] none).1
        [] = some bn2 ∧ "#6" ∈ bn2.children) := by
  have hmax : ∀ c ∈ (SNode.children ⟨none, ["#5"]⟩), ∀ j : Nat,
      matchIdx none c = some j → ∃ k, (some 5 : Option Nat) = some k ∧ j ≤ k := by
    intro c hc j hj
    have hc5 : c = "#5" := List.mem_singleton.mp hc
    subst hc5
    have hm : matchIdx none "#5" = some 5 := by decide
    rw [hm] at hj
    have : (5 : Nat) = j := Option.some.inj hj
    exact ⟨5, rfl, by omega⟩
  have hwit : ∀ k : Nat, (some 5 : Option Nat) = some k →
      ∃ c ∈ (SNode.children ⟨none, ["#5"]⟩), matchIdx none c = some k := by
    intro k hk
    have h5 : (5 : Nat) = k := Option.some.inj hk
    subst h5
    exact ⟨"#5", List.mem_singleton.mpr rfl, by decide⟩
  exact createListItem_spec [([], ⟨none, ["#5"]⟩), (["#5"], ⟨some 1, []⟩)] [] none
    ⟨none, ["#5"]⟩ (some 5) (by decide) (by decide) hmax hwit (by decide) (by decide)

/-- A store mutation program inside nested `group` scopes, on one
thread: a notifying change (abstracted to an event id handed to
`_queue_notification`), or a `with store.group(notify=...)` scope with
its body. -/
inductive GStmt : Type where
  | change (e : Nat)
  | scope (notify : Bool) (body : List GStmt)

/-- The thread-local batching state of `Store`: `batch_stack`,
`group_notify`, `pending_changes`, and the list of callback payloads
flushed so far (each flush hands the collected batch to subscribers). -/
structure BatchSt where
  depth : Nat
  notify : Bool
  pending : List Nat
  flushed : List (List Nat)
  deriving Repr, DecidableEq

/-- `Store._flush_notifications`: no-op on an empty pending list,
otherwise hand the batch to the subscribers and clear it. -/
def flushB (st : BatchSt) : BatchSt :=
  if st.pending = [] then st
  else { st with pending := [], flushed := st.flushed ++ [st.pending] }

/-- `Store._queue_notification`: drop the event when the group is
silent, otherwise append it to the pending batch and flush immediately
at depth 0. -/
def queueNote (st : BatchSt) (e : Nat) : BatchSt :=
  if st.notify = false then st
  else
    if st.depth = 0 then flushB { st with pending := st.pending ++ [e] }
    else { st with pending := st.pending ++ [e] }

/-- The `finally` block of `Store.group` after the body ran: decrement
`batch_stack`, flush when back at depth 0 with notification on, and
restore the saved `group_notify` (`prev`). -/
def scopeExit (prev : Bool) (st : BatchSt) : BatchSt :=
  { (if st.depth - 1 = 0 && st.notify then flushB { st with depth := st.depth - 1 }
     else { st with depth := st.depth - 1 }) with notify := prev }

mutual

/-- Running one statement against the batching state.  A `scope` is the
`Store.group` context manager: save `group_notify`, AND it with the
scope's `notify` argument, bump `batch_stack`, run the body, then run
the exit protocol. -/
def runStmt : GStmt → BatchSt → BatchSt
  | .change e, st => queueNote st e
  | .scope nf body, st =>
      scopeExit st.notify
        (runStmts body { st with notify := st.notify && nf, depth := st.depth + 1 })

/-- Running a scope body in order (the statements between `yield` and
the end of the `with` block). -/
def runStmts : List GStmt → BatchSt → BatchSt
  | [], st => st
  | s :: rest, st => runStmts rest (runStmt s st)

end

mutual

/-- Amended-claim specification: the change events of a statement that
are emitted to subscribers — all changes except those made while a
`notify=false` scope (or any scope nested inside it) is open. -/
def visibleEvents : GStmt → List Nat
  | .change e => [e]
  | .scope false _ => []
  | .scope true body => visibleList body

/-- `visibleEvents` over a scope body. -/
def visibleList : List GStmt → List Nat
  | [] => []
  | s :: rest => visibleEvents s ++ visibleList rest

end

mutual

theorem runStmt_silent (s : GStmt) (st : BatchSt) (h : st.notify = false) :
    runStmt s st = st := by
  cases s with
  | change e => simp [runStmt, queueNote, h]
  | scope nf body =>
      obtain ⟨d, n, pnd, fl⟩ := st
      simp only at h
      subst h
      have hb := runStmts_silent body ⟨d + 1, false, pnd, fl⟩ rfl
      simp [runStmt, hb, scopeExit]

theorem runStmts_silent (l : List GStmt) (st : BatchSt) (h : st.notify = false) :
    runStmts l st = st := by
  cases l with
  | nil => rfl
  | cons s rest =>
      rw [runStmts, runStmt_silent s st h, runStmts_silent rest st h]

end

mutual

theorem runStmt_deep (s : GStmt) (st : BatchSt) (hd : st.depth ≠ 0)
    (hn : st.notify = true) :
    runStmt s st = { st with pending := st.pending ++ visibleEvents s } := by
  cases s with
  | change e => simp [runStmt, queueNote, hn, hd, visibleEvents]
  | scope nf body =>
      cases nf with
      | false =>
          obtain ⟨d, n, pnd, fl⟩ := st
          simp only at hn
          subst hn
          simp only at hd
          have hb := runStmts_silent body ⟨d + 1, false, pnd, fl⟩ rfl
          simp [runStmt, hb, scopeExit, visibleEvents, hd]
      | true =>
          obtain ⟨d, n, pnd, fl⟩ := st
          simp only at hn
          subst hn
          simp only at hd
          have hb := runStmts_deep body ⟨d + 1, true, pnd, fl⟩ (by simp) rfl
          simp only at hb
          simp [runStmt, hb, scopeExit, visibleEvents, hd]

theorem runStmts_deep (l : List GStmt) (st : BatchSt) (hd : st.depth ≠ 0)
    (hn : st.notify = true) :
    runStmts l st = { st with pending := st.pending ++ visibleList l } := by
  cases l with
  | nil => simp [runStmts, visibleList]
  | cons s rest =>
      rw [runStmts, runStmt_deep s st hd hn,
        runStmts_deep rest { st with pending := st.pending ++ visibleEvents s }
          hd hn]
      simp [visibleList]

end

/-- C7 counterexample: the nesting
`group(notify=True) { change 1; group(notify=False) { change 2 }; change 3 }`
contains a `notify=false` scope, yet the changes 1 and 3 of the outer
scope are still flushed to subscribers at the outermost exit (only
change 2 is suppressed) — the claim says no change event from the whole
chain would be emitted. -/
theorem group_notify_chain_cex :
    runStmt (.scope true [.change 1, .scope false [.change 2], .change 3])
        ⟨0, true, [], []⟩ =
      ⟨0, true, [], [[1, 3]]⟩ := by
  decide

/-- C7 amended: on one thread, changes inside nested `group` scopes are
batched until the outermost scope exits, which flushes a single batch
holding exactly the changes not made under any `notify=false` scope (in
order); a `notify=false` scope suppresses exactly the changes made while
it or a scope nested inside it is open, not the whole chain. -/
theorem group_scope_spec (nf : Bool) (body : List GStmt) :
    runStmt (.scope nf body) ⟨0, true, [], []⟩ =
      ⟨0, true, [],
        if visibleEvents (.scope nf body) = [] then []
        else [visibleEvents (.scope nf body)]⟩ := by
  cases nf with
  | false =>
      have hb := runStmts_silent body ⟨1, false, [], []⟩ rfl
      simp [runStmt, hb, scopeExit, visibleEvents]
  | true =>
      have hb := runStmts_deep body ⟨1, true, [], []⟩ (by simp) rfl
      simp only at hb
      simp only [visibleEvents]
      by_cases hv : visibleList body = []
      · simp [runStmt, hb, scopeExit, flushB, hv]
      · simp [runStmt, hb, scopeExit, flushB, hv]

mutual

/-- A Python runtime value passed to a dispatcher, with the identity of
each mutable object explicit: containers carry a heap address, a
`ttEssence` instance carries the identity of its attribute cell, and
callables are opaque references. -/
inductive PyVal : Type where
  | prim (n : Int)
  | obj (addr : Nat) (fields : PyFields)
  | essence (eid : Nat)
  | callable (fid : Nat)

/-- The field/element values of a container. -/
inductive PyFields : Type where
  | nil
  | cons (v : PyVal) (rest : PyFields)

end

/-- A mutable cell reachable from a value: a container's own storage or
an essence's attribute state. -/
inductive Cell : Type where
  | heap (addr : Nat)
  | ess (eid : Nat)
  deriving Repr, DecidableEq

mutual

/-- The mutable cells reachable from a value. -/
def PyVal.cells : PyVal → List Cell
  | .prim _ => []
  | .obj a fs => .heap a :: PyFields.cells fs
  | .essence i => [.ess i]
  | .callable _ => []

/-- The mutable cells reachable from container fields. -/
def PyFields.cells : PyFields → List Cell
  | .nil => []
  | .cons v rest => PyVal.cells v ++ PyFields.cells rest

end

mutual

/-- `copy.deepcopy`: containers are rebuilt at fresh addresses (the
`Nat` argument is the fresh-address counter) with recursively copied
contents; primitives and callables are returned as-is; a `ttEssence`
is returned as-is because `ttEssence.__deepcopy__` returns `self`. -/
def PyVal.deepcopy : PyVal → Nat → PyVal × Nat
  | .prim n, c => (.prim n, c)
  | .obj _ fs, c =>
      (.obj c (PyFields.deepcopy fs (c + 1)).1, (PyFields.deepcopy fs (c + 1)).2)
  | .essence i, c => (.essence i, c)
  | .callable f, c => (.callable f, c)

/-- `copy.deepcopy` over container fields, threading the counter. -/
def PyFields.deepcopy : PyFields → Nat → PyFields × Nat
  | .nil, c => (.nil, c)
  | .cons v rest, c =>
      (.cons (PyVal.deepcopy v c).1 (PyFields.deepcopy rest (PyVal.deepcopy v c).2).1,
       (PyFields.deepcopy rest (PyVal.deepcopy v c).2).2)

end

/-- Python `callable(arg)` for our values. -/
def PyVal.isCallable : PyVal → Bool
  | .callable _ => true
  | _ => false

mutual

/-- `true` when the value contains no `ttEssence` reference. -/
def PyVal.essenceFree : PyVal → Bool
  | .prim _ => true
  | .obj _ fs => PyFields.essenceFree fs
  | .essence _ => false
  | .callable _ => true

/-- `essenceFree` over container fields. -/
def PyFields.essenceFree : PyFields → Bool
  | .nil => true
  | .cons v rest => PyVal.essenceFree v && PyFields.essenceFree rest

end

/-- The per-argument marshalling of `put_sparkle` / `put_state_sparkle`
when the call originates off the catalyst thread:
`arg if callable(arg) else copy.deepcopy(arg)`. -/
def putSparkleArg (v : PyVal) (c : Nat) : PyVal × Nat :=
  if v.isCallable then (v, c) else PyVal.deepcopy v c

/-- What the caller observes through its retained reference `v`: the
contents of every mutable cell reachable from it, under heap `h`. -/
def observed (h : Cell → Int) (v : PyVal) : List Int :=
  (PyVal.cells v).map h

/-- The claim's isolation property for one enqueued argument: however
the handler mutates the cells reachable from the marshalled copy
(heap `h` becomes `h2`, agreeing outside the copy's cells), the caller's
observation of the original is unchanged. -/
def isolated (v : PyVal) (c : Nat) : Prop :=
  ∀ h h2 : Cell → Int,
    (∀ cl : Cell, cl ∈ PyVal.cells (putSparkleArg v c).1 ∨ h2 cl = h cl) →
    observed h2 v = observed h v

mutual

theorem deepcopy_counter_le (v : PyVal) (c : Nat) : c ≤ (PyVal.deepcopy v c).2 := by
  cases v with
  | prim n => simp [PyVal.deepcopy]
  | obj a fs =>
      have := deepcopyF_counter_le fs (c + 1)
      simp only [PyVal.deepcopy]
      omega
  | essence i => simp [PyVal.deepcopy]
  | callable f => simp [PyVal.deepcopy]

theorem deepcopyF_counter_le (fs : PyFields) (c : Nat) :
    c ≤ (PyFields.deepcopy fs c).2 := by
  cases fs with
  | nil => simp [PyFields.deepcopy]
  | cons v rest =>
      have h1 := deepcopy_counter_le v c
      have h2 := deepcopyF_counter_le rest (PyVal.deepcopy v c).2
      simp only [PyFields.deepcopy]
      omega

end

mutual

theorem deepcopy_cells_fresh (v : PyVal) (c : Nat) (hfree : v.essenceFree = true) :
    ∀ cl ∈ PyVal.cells (PyVal.deepcopy v c).1, ∃ a, cl = .heap a ∧ c ≤ a := by
  cases v with
  | prim n => simp [PyVal.deepcopy, PyVal.cells]
  | obj a fs =>
      intro cl hcl
      simp only [PyVal.deepcopy, PyVal.cells, List.mem_cons] at hcl
      rcases hcl with rfl | hcl
      · exact ⟨c, rfl, Nat.le_refl c⟩
      · have hfs : fs.essenceFree = true := by
          simpa [PyVal.essenceFree] using hfree
        obtain ⟨a2, rfl, ha2⟩ := deepcopyF_cells_fresh fs (c + 1) hfs cl hcl
        exact ⟨a2, rfl, by omega⟩
  | essence i => simp [PyVal.essenceFree] at hfree
  | callable f => simp [PyVal.deepcopy, PyVal.cells]

theorem deepcopyF_cells_fresh (fs : PyFields) (c : Nat) (hfree : fs.essenceFree = true) :
    ∀ cl ∈ PyFields.cells (PyFields.deepcopy fs c).1, ∃ a, cl = .heap a ∧ c ≤ a := by
  cases fs with
  | nil => simp [PyFields.deepcopy, PyFields.cells]
  | cons v rest =>
      intro cl hcl
      have hv : v.essenceFree = true := by
        simp only [PyFields.essenceFree, Bool.and_eq_true] at hfree
        exact hfree.1
      have hr : rest.essenceFree = true := by
        simp only [PyFields.essenceFree, Bool.and_eq_true] at hfree
        exact hfree.2
      simp only [PyFields.deepcopy, PyFields.cells, List.mem_append] at hcl
      rcases hcl with hcl | hcl
      · exact deepcopy_cells_fresh v c hv cl hcl
      · obtain ⟨a2, rfl, ha2⟩ :=
          deepcopyF_cells_fresh rest (PyVal.deepcopy v c).2 hr cl hcl
        exact ⟨a2, rfl, Nat.le_trans (deepcopy_counter_le v c) ha2⟩

end

mutual

theorem cells_essenceFree (v : PyVal) (hfree : v.essenceFree = true) :
    ∀ cl ∈ PyVal.cells v, ∃ a, cl = .heap a := by
  cases v with
  | prim n => simp [PyVal.cells]
  | obj a fs =>
      intro cl hcl
      simp only [PyVal.cells, List.mem_cons] at hcl
      rcases hcl with rfl | hcl
      · exact ⟨a, rfl⟩
      · exact cellsF_essenceFree fs (by simpa [PyVal.essenceFree] using hfree) cl hcl
  | essence i => simp [PyVal.essenceFree] at hfree
  | callable f => simp [PyVal.cells]

theorem cellsF_essenceFree (fs : PyFields) (hfree : fs.essenceFree = true) :
    ∀ cl ∈ PyFields.cells fs, ∃ a, cl = .heap a := by
  cases fs with
  | nil => simp [PyFields.cells]
  | cons v rest =>
      intro cl hcl
      simp only [PyFields.essenceFree, Bool.and_eq_true] at hfree
      simp only [PyFields.cells, List.mem_append] at hcl
      rcases hcl with hcl | hcl
      · exact cells_essenceFree v hfree.1 cl hcl
      · exact cellsF_essenceFree rest hfree.2 cl hcl

end

/-- C9 counterexample: a `ttEssence` argument (non-callable) enqueued
cross-thread.  `copy.deepcopy` returns the same instance
(`ttEssence.__deepcopy__` returns `self`), so its attribute cell stays
shared: a handler mutation of that cell changes what the caller reads
through its retained reference — not a store update. -/
theorem deepcopy_essence_shared_cex : ¬ isolated (.essence 5) 0 := by
  intro hiso
  have hcond : ∀ cl : Cell, cl ∈ PyVal.cells (putSparkleArg (.essence 5) 0).1 ∨
      (if cl = Cell.ess 5 then (1 : Int) else 0) = (0 : Int) := by
    intro cl
    by_cases hcl : cl = Cell.ess 5
    · subst hcl
      left
      simp [putSparkleArg, PyVal.isCallable, PyVal.deepcopy, PyVal.cells]
    · right
      simp [hcl]
  have hobs := hiso (fun _ => 0) (fun cl => if cl = Cell.ess 5 then 1 else 0) hcond
  simp [observed, PyVal.cells] at hobs

/-- C9 amended: when the call originates off the catalyst thread, each
non-callable argument is passed through `copy.deepcopy`; for an argument
containing no `ttEssence` reference (essences override `__deepcopy__` to
return `self` and stay shared) the copy lives entirely in fresh cells,
so the caller cannot observe any mutation the handler makes through the
enqueued copy. -/
theorem putSparkleArg_isolated (v : PyVal) (c : Nat)
    (hnc : v.isCallable = false) (hfree : v.essenceFree = true)
    (hfresh : ∀ a : Nat, Cell.heap a ∈ PyVal.cells v → a < c) :
    isolated v c := by
  intro h h2 hmut
  unfold observed
  apply List.map_congr_left
  intro cl hcl
  obtain ⟨a, rfl⟩ := cells_essenceFree v hfree cl hcl
  rcases hmut (.heap a) with hin | heq
  · exfalso
    rw [show putSparkleArg v c = PyVal.deepcopy v c from by simp [putSparkleArg, hnc]] at hin
    obtain ⟨a2, ha2, hge⟩ := deepcopy_cells_fresh v c hfree _ hin
    have : a = a2 := by cases ha2; rfl
    have hlt := hfresh a hcl
    omega
  · exact heq

/-- Witness for C9 (amended) at a one-element list argument allocated at
heap address 0, marshalled with fresh counter 1. -/
theorem putSparkleArg_isolated_witness :
    (PyVal.obj 0 (.cons (.prim 7) .nil)).isCallable = false ∧
    (PyVal.obj 0 (.cons (.prim 7) .nil)).essenceFree = true ∧
    isolated (PyVal.obj 0 (.cons (.prim 7) .nil)) 1 :=
  ⟨rfl, rfl,
   putSparkleArg_isolated (PyVal.obj 0 (.cons (.prim 7) .nil)) 1 rfl rfl
     (by
       intro a ha
       simp only [PyVal.cells, PyFields.cells, List.mem_cons] at ha
       rcases ha with ha | ha
       · cases ha; omega
       · simp at ha)⟩

/-- `Store._recursive_delete(path)`, with an explicit recursion budget
(`fuel`; `remove_item` passes the storage size, which bounds the
recursion depth).  If the node is present, walk a snapshot of its
children in order: queue a change event `(child, None, old)` for each
child still present, recurse into it, and finally delete the node
itself.  Events are returned in queueing order. -/
def recursiveDelete : Nat → Storage → Path → Storage × List SEvent
  | 0, σ, _ => (σ, [])
  | fuel + 1, σ, p =>
      match getNode σ p with
      | none => (σ, [])
      | some node =>
          let r := node.children.foldl
            (fun acc c =>
              match getNode acc.1 (p ++ [c]) with
              | some cn =>
                  ((recursiveDelete fuel acc.1 (p ++ [c])).1,
                    acc.2 ++ [(p ++ [c], none, cn.val)] ++
                      (recursiveDelete fuel acc.1 (p ++ [c])).2)
              | none =>
                  ((recursiveDelete fuel acc.1 (p ++ [c])).1,
                    acc.2 ++ (recursiveDelete fuel acc.1 (p ++ [c])).2))
            (σ, [])
          (delNode r.1 p, r.2)

/-- One iteration of the `_recursive_delete` child loop (the closure of
`recursiveDelete`, named for the proofs). -/
def stepDel (fuel : Nat) (p : Path) (acc : Storage × List SEvent) (c : String) :
    Storage × List SEvent :=
  match getNode acc.1 (p ++ [c]) with
  | some cn =>
      ((recursiveDelete fuel acc.1 (p ++ [c])).1,
        acc.2 ++ [(p ++ [c], none, cn.val)] ++
          (recursiveDelete fuel acc.1 (p ++ [c])).2)
  | none =>
      ((recursiveDelete fuel acc.1 (p ++ [c])).1,
        acc.2 ++ (recursiveDelete fuel acc.1 (p ++ [c])).2)

/-- The `_recursive_delete` child loop over a children snapshot. -/
def delChildren (fuel : Nat) (σ : Storage) (p : Path) (cs : List String) :
    Storage × List SEvent :=
  cs.foldl (stepDel fuel p) (σ, [])

/-- `Store.remove_item(path)`: for the root only the value is cleared;
for an absent path nothing happens; otherwise a change event for the
node is queued, the subtree is recursively deleted and the last path
segment is discarded from the parent's children set. -/
def removeItem (σ : Storage) (p : Path) : Storage × List SEvent :=
  if p = [] then
    (match getNode σ [] with
     | some rn => setNode σ [] { rn with val := none }
     | none => σ, [])
  else
    match getNode σ p with
    | none => (σ, [])
    | some node =>
        ((match getNode (recursiveDelete σ.length σ p).1 p.dropLast with
          | some pn =>
              setNode (recursiveDelete σ.length σ p).1 p.dropLast
                { pn with children := pn.children.erase (p.getLastD "") }
          | none => (recursiveDelete σ.length σ p).1),
         (p, none, node.val) :: (recursiveDelete σ.length σ p).2)

/-- The keys of the storage dict. -/
def keys (σ : Storage) : List Path := σ.map Prod.fst

/-- `underB p q`: `q` lies in the subtree rooted at `p` (`p` is a
segment-wise prefix of `q`). -/
def underB (p q : Path) : Bool := decide (q.take p.length = p)

/-- Well-formedness of the subtree rooted at `p`, as the source
maintains it: every stored node under `p` has duplicate-free children,
all its listed children are present, and (except for `p` itself) its
parent is present and lists its final segment. -/
def SubWF (σ : Storage) (p : Path) : Prop :=
  ∀ e ∈ σ, underB p e.1 = true →
    e.2.children.Nodup ∧
    (∀ c ∈ e.2.children, getNode σ (e.1 ++ [c]) ≠ none) ∧
    (e.1 ≠ p →
      (getNode σ e.1.dropLast).isSome = true ∧
      e.1.getLastD "" ∈ ((getNode σ e.1.dropLast).getD ⟨none, []⟩).children)

/-- Number of stored nodes in the subtree rooted at `p`. -/
def subCnt (σ : Storage) (p : Path) : Nat :=
  (keys σ).countP fun q => underB p q

theorem mem_of_getNode (σ : Storage) (q : Path) (n : SNode)
    (h : getNode σ q = some n) : (q, n) ∈ σ := by
  induction σ with
  | nil => simp [getNode] at h
  | cons e rest ih =>
      obtain ⟨r, m⟩ := e
      simp only [getNode] at h
      by_cases hr : r = q
      · rw [if_pos hr] at h
        cases h
        subst hr
        exact List.mem_cons_self _ _
      · rw [if_neg hr] at h
        exact List.mem_cons_of_mem _ (ih h)

theorem getNode_none_iff (σ : Storage) (q : Path) :
    getNode σ q = none ↔ q ∉ keys σ := by
  induction σ with
  | nil => simp [getNode, keys]
  | cons e rest ih =>
      obtain ⟨r, m⟩ := e
      simp only [getNode, keys, List.map_cons, List.mem_cons]
      by_cases hr : r = q
      · subst hr
        simp only [if_pos rfl]
        constructor
        · intro hcontra
          exact absurd hcontra (by simp)
        · intro hcontra
          exact absurd (Or.inl trivial) hcontra
      · rw [if_neg hr]
        rw [keys] at ih
        rw [ih]
        constructor
        · intro hni hcontra
          rcases hcontra with heq | hmem
          · exact hr heq.symm
          · exact hni hmem
        · intro hni hmem
          exact hni (Or.inr hmem)

theorem getNode_of_mem_nodup (σ : Storage) (q : Path) (n : SNode)
    (hnd : (keys σ).Nodup) (h : (q, n) ∈ σ) : getNode σ q = some n := by
  induction σ with
  | nil => cases h
  | cons e rest ih =>
      obtain ⟨r, m⟩ := e
      simp only [keys, List.map_cons, List.nodup_cons] at hnd
      rcases List.mem_cons.mp h with heq | hmem
      · cases heq
        simp [getNode]
      · have hrq : r ≠ q := by
          intro hcontra
          subst hcontra
          exact hnd.1 (List.mem_map.mpr ⟨(r, n), hmem, rfl⟩)
        simp only [getNode, if_neg hrq]
        exact ih hnd.2 hmem

theorem delNode_sublist (σ : Storage) (p : Path) : List.Sublist (delNode σ p) σ := by
  induction σ with
  | nil => simp [delNode]
  | cons e rest ih =>
      obtain ⟨r, m⟩ := e
      simp only [delNode]
      by_cases hr : r = p
      · rw [if_pos hr]
        exact (List.sublist_cons_self _ _)
      · rw [if_neg hr]
        exact List.Sublist.cons₂ _ ih

theorem getNode_delNode_ne (σ : Storage) (p q : Path) (h : q ≠ p) :
    getNode (delNode σ p) q = getNode σ q := by
  induction σ with
  | nil => rfl
  | cons e rest ih =>
      obtain ⟨r, m⟩ := e
      simp only [delNode]
      by_cases hr : r = p
      · rw [if_pos hr]
        subst hr
        simp only [getNode]
        rw [if_neg fun hh => h hh.symm]
      · rw [if_neg hr]
        simp only [getNode]
        by_cases hq : r = q
        · simp [hq]
        · simp [hq, ih]

theorem getNode_delNode_self (σ : Storage) (p : Path) (hnd : (keys σ).Nodup) :
    getNode (delNode σ p) p = none := by
  induction σ with
  | nil => rfl
  | cons e rest ih =>
      obtain ⟨r, m⟩ := e
      simp only [keys, List.map_cons, List.nodup_cons] at hnd
      simp only [delNode]
      by_cases hr : r = p
      · rw [if_pos hr]
        subst hr
        rw [getNode_none_iff]
        intro hmem
        simp only [keys] at hmem
        exact hnd.1 hmem
      · rw [if_neg hr]
        simp only [getNode, if_neg hr]
        exact ih hnd.2

theorem underB_iff (p q : Path) : underB p q = true ↔ ∃ t, q = p ++ t := by
  constructor
  · intro h
    have ht : q.take p.length = p := by simpa [underB] using h
    refine ⟨q.drop p.length, ?_⟩
    conv_lhs => rw [← List.take_append_drop p.length q]
    rw [ht]
  · rintro ⟨t, rfl⟩
    simp [underB, List.take_left]

theorem underB_refl (p : Path) : underB p p = true := by
  simp [underB]

theorem underB_app (p t : Path) : underB p (p ++ t) = true :=
  (underB_iff p _).mpr ⟨t, rfl⟩

theorem underB_trans (p q r : Path) (h1 : underB p q = true) (h2 : underB q r = true) :
    underB p r = true := by
  obtain ⟨t, rfl⟩ := (underB_iff p q).mp h1
  obtain ⟨s, rfl⟩ := (underB_iff _ _).mp h2
  rw [List.append_assoc]
  exact underB_app p _

theorem underB_child (p : Path) (c : String) (q : Path)
    (h : underB (p ++ [c]) q = true) : underB p q = true :=
  underB_trans p (p ++ [c]) q (underB_app p [c]) h

theorem underB_len (p q : Path) (h : underB p q = true) : p.length ≤ q.length := by
  obtain ⟨t, rfl⟩ := (underB_iff p q).mp h
  simp

theorem underB_eq_of_len (p q : Path) (h : underB p q = true)
    (hl : q.length ≤ p.length) : q = p := by
  obtain ⟨t, rfl⟩ := (underB_iff p q).mp h
  have : t = [] := by
    rw [List.length_append] at hl
    exact List.eq_nil_of_length_eq_zero (by omega)
  simp [this]

theorem underB_step (p q : Path) (h : underB p q = true) (hne : q ≠ p) :
    ∃ c t, q = p ++ c :: t := by
  obtain ⟨t, rfl⟩ := (underB_iff p q).mp h
  cases t with
  | nil => simp at hne
  | cons c rest => exact ⟨c, rest, rfl⟩

theorem not_under_shorter (p q : Path) (h : q.length < p.length) :
    underB p q = false := by
  by_contra hcontra
  have := underB_len p q (by simpa using hcontra)
  omega

theorem sib_disjoint (p : Path) (c c2 : String) (q : Path) (hne : c ≠ c2)
    (h : underB (p ++ [c]) q = true) : underB (p ++ [c2]) q = false := by
  obtain ⟨t, rfl⟩ := (underB_iff _ q).mp h
  by_contra hcontra
  obtain ⟨s, hs⟩ := (underB_iff _ _).mp (by simpa using hcontra)
  have h2 : c :: t = c2 :: s := by
    simp only [List.append_assoc, List.singleton_append] at hs
    exact List.append_cancel_left hs
  injection h2 with h3 h4
  exact hne h3

theorem under_dropLast (p q : Path) (h : underB p q = true) (hne : q ≠ p) :
    underB p q.dropLast = true := by
  obtain ⟨c, t, rfl⟩ := underB_step p q h hne
  rw [show (p ++ c :: t).dropLast = p ++ (c :: t).dropLast from
    List.dropLast_append_of_ne_nil p (by simp)]
  exact underB_app p _

theorem countP_erase_eq {α : Type} [DecidableEq α] (l : List α) (f : α → Bool) (a : α)
    (hnd : l.Nodup) (ha : a ∈ l) (hfa : f a = true) :
    l.countP (fun x => f x && decide (x ≠ a)) + 1 = l.countP f := by
  induction l with
  | nil => cases ha
  | cons x xs ih =>
      rw [List.nodup_cons] at hnd
      rw [List.countP_cons, List.countP_cons]
      rcases List.mem_cons.mp ha with rfl | hmem
      · have hxs : xs.countP (fun y => f y && decide (y ≠ a)) = xs.countP f := by
          apply List.countP_congr
          intro y hy
          have hya : y ≠ a := fun hcontra => hnd.1 (hcontra ▸ hy)
          simp [hya]
        have hself : (decide (a ≠ a)) = false := by simp
        simp only [hself, Bool.and_false, if_false, hfa, if_true, hxs]
        simp
      · have hxa : x ≠ a := fun hcontra => hnd.1 (hcontra ▸ hmem)
        have hih := ih hnd.2 hmem
        have hd : (decide (x ≠ a)) = true := by simp [hxa]
        simp only [hd, Bool.and_true]
        omega

theorem subCnt_le (σ : Storage) (p : Path) : subCnt σ p ≤ σ.length :=
  le_trans (List.countP_le_length _) (by simp [keys])

theorem subCnt_pos (σ : Storage) (p : Path) (n : SNode) (h : getNode σ p = some n) :
    1 ≤ subCnt σ p := by
  have hmem : p ∈ keys σ := by
    simp only [keys]
    exact List.mem_map.mpr ⟨(p, n), mem_of_getNode σ p n h, rfl⟩
  exact List.countP_pos_iff.mpr ⟨p, hmem, underB_refl p⟩

theorem subCnt_child_lt (σ : Storage) (p : Path) (c : String) (n : SNode)
    (hnd : (keys σ).Nodup) (h : getNode σ p = some n) :
    subCnt σ (p ++ [c]) < subCnt σ p := by
  have hmem : p ∈ keys σ := by
    simp only [keys]
    exact List.mem_map.mpr ⟨(p, n), mem_of_getNode σ p n h, rfl⟩
  have hsplit := countP_erase_eq (keys σ) (fun q => underB p q) p hnd hmem (underB_refl p)
  have hmono : (keys σ).countP (fun q => underB (p ++ [c]) q) ≤
      (keys σ).countP (fun q => underB p q && decide (q ≠ p)) := by
    apply List.countP_mono_left
    intro q hq hc
    have h1 : underB p q = true := underB_child p c q (by simpa using hc)
    have h2 : q ≠ p := by
      intro hcontra
      subst hcontra
      have := underB_len (q ++ [c]) q (by simpa using hc)
      simp at this
    simp [h1, h2]
  have hsplit2 : (keys σ).countP (fun q => underB p q && decide (q ≠ p)) + 1 =
      (keys σ).countP (fun q => underB p q) := hsplit
  simp only [subCnt]
  omega

theorem foldl_stepDel_sublist (fuel : Nat) (p : Path)
    (h : ∀ σ q, List.Sublist (recursiveDelete fuel σ q).1 σ) :
    ∀ (cs : List String) (acc : Storage × List SEvent),
      List.Sublist (cs.foldl (stepDel fuel p) acc).1 acc.1 := by
  intro cs
  induction cs with
  | nil => intro acc; exact List.Sublist.refl _
  | cons c cs ih =>
      intro acc
      rw [List.foldl_cons]
      have h1 : List.Sublist (stepDel fuel p acc c).1 acc.1 := by
        unfold stepDel
        cases getNode acc.1 (p ++ [c]) <;> exact h _ _
      exact (ih _).trans h1

theorem recursiveDelete_sublist :
    ∀ (fuel : Nat) (σ : Storage) (p : Path),
      List.Sublist (recursiveDelete fuel σ p).1 σ := by
  intro fuel
  induction fuel with
  | zero => intro σ p; exact List.Sublist.refl _
  | succ f ih =>
      intro σ p
      rw [recursiveDelete]
      cases hg : getNode σ p with
      | none => exact List.Sublist.refl _
      | some node =>
          simp only
          exact (delNode_sublist _ _).trans (foldl_stepDel_sublist f p ih node.children (σ, []))

theorem recursiveDelete_succ (fuel : Nat) (σ : Storage) (p : Path) (node : SNode)
    (h : getNode σ p = some node) :
    recursiveDelete (fuel + 1) σ p =
      (delNode (delChildren fuel σ p node.children).1 p,
       (delChildren fuel σ p node.children).2) := by
  rw [recursiveDelete, h]
  rfl

theorem foldl_stepDel_acc (fuel : Nat) (p : Path) :
    ∀ (cs : List String) (σ : Storage) (evs1 evs2 : List SEvent),
      cs.foldl (stepDel fuel p) (σ, evs1 ++ evs2) =
        ((cs.foldl (stepDel fuel p) (σ, evs2)).1,
          evs1 ++ (cs.foldl (stepDel fuel p) (σ, evs2)).2) := by
  intro cs
  induction cs with
  | nil => intro σ evs1 evs2; simp
  | cons c cs ih =>
      intro σ evs1 evs2
      rw [List.foldl_cons, List.foldl_cons]
      cases hg : getNode σ (p ++ [c]) with
      | some cn =>
          simp only [stepDel, hg, List.append_assoc]
          exact ih _ evs1 _
      | none =>
          simp only [stepDel, hg, List.append_assoc]
          exact ih _ evs1 _

theorem foldl_stepDel_acc0 (fuel : Nat) (p : Path) (cs : List String) (σ : Storage)
    (evs : List SEvent) :
    cs.foldl (stepDel fuel p) (σ, evs) =
      ((cs.foldl (stepDel fuel p) (σ, [])).1,
        evs ++ (cs.foldl (stepDel fuel p) (σ, [])).2) := by
  have h := foldl_stepDel_acc fuel p cs σ evs []
  rw [List.append_nil] at h
  exact h

theorem delChildren_cons (fuel : Nat) (σ : Storage) (p : Path) (c : String)
    (cs : List String) :
    delChildren fuel σ p (c :: cs) =
      ((delChildren fuel (recursiveDelete fuel σ (p ++ [c])).1 p cs).1,
        (match getNode σ (p ++ [c]) with
         | some cn => [(p ++ [c], none, cn.val)]
         | none => []) ++ (recursiveDelete fuel σ (p ++ [c])).2 ++
          (delChildren fuel (recursiveDelete fuel σ (p ++ [c])).1 p cs).2) := by
  unfold delChildren
  rw [List.foldl_cons]
  cases hg : getNode σ (p ++ [c]) with
  | some cn =>
      simp only [stepDel, hg, List.nil_append]
      rw [foldl_stepDel_acc0 fuel p cs ((recursiveDelete fuel σ (p ++ [c])).1)]
  | none =>
      simp only [stepDel, hg, List.nil_append]
      rw [foldl_stepDel_acc0 fuel p cs ((recursiveDelete fuel σ (p ++ [c])).1)]

theorem SubWF_mono (σ : Storage) (p r : Path) (h : SubWF σ p)
    (hr : underB p r = true) : SubWF σ r := by
  intro e he hu
  have hup : underB p e.1 = true := underB_trans p r e.1 hr hu
  obtain ⟨h1, h2, h3⟩ := h e he hup
  refine ⟨h1, h2, ?_⟩
  intro hne
  apply h3
  intro hcontra
  have l1 := underB_len r e.1 hu
  have l2 := underB_len p r hr
  have l3 : r.length < e.1.length := by
    by_contra hle
    exact hne (underB_eq_of_len r e.1 hu (by omega))
  rw [hcontra] at l3
  omega

theorem SubWF_congr (σ σ2 : Storage) (r : Path)
    (hnd2 : (keys σ2).Nodup)
    (hag : ∀ q, underB r q = true → getNode σ2 q = getNode σ q)
    (h : SubWF σ r) : SubWF σ2 r := by
  intro e he hu
  have hget2 : getNode σ2 e.1 = some e.2 := getNode_of_mem_nodup σ2 e.1 e.2 hnd2 he
  have hget : getNode σ e.1 = some e.2 := by rw [← hag e.1 hu]; exact hget2
  have hmem : (e.1, e.2) ∈ σ := mem_of_getNode σ e.1 e.2 hget
  obtain ⟨h1, h2, h3⟩ := h (e.1, e.2) hmem hu
  refine ⟨h1, ?_, ?_⟩
  · intro c hc
    rw [hag (e.1 ++ [c]) (underB_trans r e.1 (e.1 ++ [c]) hu (underB_app e.1 [c]))]
    exact h2 c hc
  · intro hne
    have hdrop : underB r e.1.dropLast = true := under_dropLast r e.1 hu hne
    rw [hag e.1.dropLast hdrop]
    exact h3 hne

theorem present_child_step (σ : Storage) (p : Path) (hwf : SubWF σ p) :
    ∀ (n : Nat) (t : List String), t.length = n → ∀ c : String,
      getNode σ (p ++ c :: t) ≠ none →
      ∀ node, getNode σ p = some node → c ∈ node.children := by
  intro n
  induction n using Nat.strong_induction_on with
  | _ n ih =>
      intro t ht c hq node hp
      cases hm : getNode σ (p ++ c :: t) with
      | none => exact absurd hm hq
      | some m =>
          have hmem : (p ++ c :: t, m) ∈ σ := mem_of_getNode σ _ m hm
          have hu : underB p (p ++ c :: t) = true := underB_app p (c :: t)
          have hne : p ++ c :: t ≠ p := by
            intro hcontra
            have := congrArg List.length hcontra
            simp at this
          obtain ⟨-, -, h3⟩ := hwf (p ++ c :: t, m) hmem hu
          obtain ⟨hpar, hlast⟩ := h3 hne
          cases t using List.reverseRecOn with
          | nil =>
              have hdrop : (p ++ [c]).dropLast = p := by
                rw [List.dropLast_append_of_ne_nil p (by simp)]
                simp
              have hlastv : (p ++ [c]).getLastD "" = c := by
                simp
              rw [hdrop, hp] at hlast
              rw [hlastv] at hlast
              simpa using hlast
          | append_singleton t2 s ihx =>
              have hdrop : (p ++ c :: (t2 ++ [s])).dropLast = p ++ c :: t2 := by
                rw [List.dropLast_append_of_ne_nil p (by simp)]
                rw [show c :: (t2 ++ [s]) = (c :: t2) ++ [s] from by simp]
                rw [List.dropLast_concat]
              rw [hdrop] at hpar
              have hq2 : getNode σ (p ++ c :: t2) ≠ none := by
                intro hcontra
                rw [hcontra] at hpar
                simp at hpar
              have hlen2 : t2.length < n := by
                rw [← ht]
                simp
              exact ih t2.length hlen2 t2 rfl c hq2 node hp

/-- Specification bundle for `recursiveDelete` at a present node `p`:
the whole subtree is gone, nothing else changed, and the events are
exactly one `(q, None, old)` per present strict descendant of `p`. -/
def RDC (σ : Storage) (p : Path) (r : Storage × List SEvent) : Prop :=
  (∀ q, underB p q = true → getNode r.1 q = none) ∧
  (∀ q, underB p q = false → getNode r.1 q = getNode σ q) ∧
  (∀ q n, getNode σ q = some n → underB p q = true → q ≠ p → (q, none, n.val) ∈ r.2) ∧
  (∀ e ∈ r.2, ∃ q n, getNode σ q = some n ∧ underB p q = true ∧ q ≠ p ∧
      e = (q, none, n.val)) ∧
  (r.2.map fun e => e.1).Nodup

/-- Specification bundle for the `_recursive_delete` child loop over the
children `cs` of `p`: the child subtrees are gone, nothing else changed,
and the events are exactly one per present node in those subtrees. -/
def DCC (σ : Storage) (p : Path) (cs : List String) (r : Storage × List SEvent) : Prop :=
  (∀ c ∈ cs, ∀ q, underB (p ++ [c]) q = true → getNode r.1 q = none) ∧
  (∀ q, (∀ c ∈ cs, underB (p ++ [c]) q = false) → getNode r.1 q = getNode σ q) ∧
  (∀ c ∈ cs, ∀ q n, getNode σ q = some n → underB (p ++ [c]) q = true →
      (q, none, n.val) ∈ r.2) ∧
  (∀ e ∈ r.2, ∃ c, c ∈ cs ∧ ∃ q n, getNode σ q = some n ∧
      underB (p ++ [c]) q = true ∧ e = (q, none, n.val)) ∧
  (r.2.map fun e => e.1).Nodup

theorem delChildren_sublist (fuel : Nat) (σ : Storage) (p : Path) (cs : List String) :
    List.Sublist (delChildren fuel σ p cs).1 σ :=
  foldl_stepDel_sublist fuel p (fun σ2 q => recursiveDelete_sublist fuel σ2 q) cs (σ, [])

theorem keys_sublist_nodup (σ1 σ2 : Storage) (h : List.Sublist σ1 σ2)
    (hnd : (keys σ2).Nodup) : (keys σ1).Nodup :=
  List.Nodup.sublist (h.map Prod.fst) hnd

theorem subCnt_sublist (σ1 σ2 : Storage) (h : List.Sublist σ1 σ2) (p : Path) :
    subCnt σ1 p ≤ subCnt σ2 p :=
  (h.map Prod.fst).countP_le _

theorem delete_spec (fuel : Nat) :
    (∀ σ p, (keys σ).Nodup → SubWF σ p → getNode σ p ≠ none →
      subCnt σ p ≤ fuel → RDC σ p (recursiveDelete fuel σ p)) ∧
    (∀ σ p cs, (keys σ).Nodup → cs.Nodup →
      (∀ c ∈ cs, SubWF σ (p ++ [c])) →
      (∀ c ∈ cs, getNode σ (p ++ [c]) ≠ none) →
      (∀ c ∈ cs, subCnt σ (p ++ [c]) ≤ fuel) →
      DCC σ p cs (delChildren fuel σ p cs)) := by
  induction fuel with
  | zero =>
      constructor
      · intro σ p hnd hwf hp hcnt
        cases hg : getNode σ p with
        | none => exact absurd hg hp
        | some n =>
            have := subCnt_pos σ p n hg
            omega
      · intro σ p cs hnd hcnd hsub hpres hcnt
        cases cs with
        | nil =>
            exact ⟨by simp, fun q _ => rfl, by simp, by simp [delChildren], by simp [delChildren]⟩
        | cons c cs2 =>
            have h1 := hpres c (List.mem_cons_self _ _)
            cases hg : getNode σ (p ++ [c]) with
            | none => exact absurd hg h1
            | some n =>
                have h2 := subCnt_pos σ (p ++ [c]) n hg
                have h3 := hcnt c (List.mem_cons_self _ _)
                omega
  | succ f ihJ =>
      have hR : ∀ σ p, (keys σ).Nodup → SubWF σ p → getNode σ p ≠ none →
          subCnt σ p ≤ f + 1 → RDC σ p (recursiveDelete (f + 1) σ p) := by
        intro σ p hnd hwf hp hcnt
        cases hg : getNode σ p with
        | none => exact absurd hg hp
        | some node =>
            rw [recursiveDelete_succ f σ p node hg]
            have hpm : (p, node) ∈ σ := mem_of_getNode σ p node hg
            obtain ⟨hchnd, hchsound, -⟩ := hwf (p, node) hpm (underB_refl p)
            have hsub2 : ∀ c ∈ node.children, SubWF σ (p ++ [c]) :=
              fun c _ => SubWF_mono σ p (p ++ [c]) hwf (underB_app p [c])
            have hcnt2 : ∀ c ∈ node.children, subCnt σ (p ++ [c]) ≤ f := by
              intro c _
              have := subCnt_child_lt σ p c node hnd hg
              omega
            obtain ⟨d1, d2, d3, d4, d5⟩ :=
              ihJ.2 σ p node.children hnd hchnd hsub2 hchsound hcnt2
            have hsubl : List.Sublist (delChildren f σ p node.children).1 σ :=
              delChildren_sublist f σ p node.children
            have hnd1 : (keys (delChildren f σ p node.children).1).Nodup :=
              keys_sublist_nodup _ _ hsubl hnd
            refine ⟨?_, ?_, ?_, ?_, ?_⟩
            · intro q hq
              by_cases hqp : q = p
              · subst hqp
                exact getNode_delNode_self _ _ hnd1
              · obtain ⟨c, t, rfl⟩ := underB_step p q hq hqp
                rw [getNode_delNode_ne _ _ _ hqp]
                by_cases hcmem : c ∈ node.children
                · exact d1 c hcmem _ ((underB_iff _ _).mpr ⟨t, by simp⟩)
                · have hnone : ∀ c2 ∈ node.children,
                      underB (p ++ [c2]) (p ++ c :: t) = false := by
                    intro c2 hc2
                    have hcc : c ≠ c2 := fun hcontra => hcmem (hcontra ▸ hc2)
                    exact sib_disjoint p c c2 _ hcc ((underB_iff _ _).mpr ⟨t, by simp⟩)
                  rw [d2 _ hnone]
                  cases hgq : getNode σ (p ++ c :: t) with
                  | none => rfl
                  | some m =>
                      exact absurd
                        (present_child_step σ p hwf t.length t rfl c
                          (by simp [hgq]) node hg) hcmem
            · intro q hq
              have hqp : q ≠ p := by
                intro hcontra
                subst hcontra
                rw [underB_refl] at hq
                cases hq
              rw [getNode_delNode_ne _ _ _ hqp]
              apply d2
              intro c hc
              by_contra hcontra
              have h2 : underB p q = true :=
                underB_child p c q (by simpa using hcontra)
              rw [hq] at h2
              cases h2
            · intro q n hq hu hne
              obtain ⟨c, t, rfl⟩ := underB_step p q hu hne
              have hcmem : c ∈ node.children :=
                present_child_step σ p hwf t.length t rfl c (by simp [hq]) node hg
              exact d3 c hcmem _ n hq ((underB_iff _ _).mpr ⟨t, by simp⟩)
            · intro e he
              obtain ⟨c, hc, q, n, hq, hu, he2⟩ := d4 e he
              refine ⟨q, n, hq, underB_child p c q hu, ?_, he2⟩
              intro hcontra
              subst hcontra
              have := underB_len (q ++ [c]) q hu
              simp at this
            · exact d5
      refine ⟨hR, ?_⟩
      intro σ p cs
      induction cs generalizing σ with
      | nil =>
          intro hnd hcnd hsub hpres hcnt
          exact ⟨by simp, fun q _ => rfl, by simp, by simp [delChildren], by simp [delChildren]⟩
      | cons c cs2 ihCs =>
          intro hnd hcnd hsub hpres hcnt
          rw [List.nodup_cons] at hcnd
          have hpresc := hpres c (List.mem_cons_self _ _)
          cases hg : getNode σ (p ++ [c]) with
          | none => exact absurd hg hpresc
          | some cn =>
              obtain ⟨r1, r2, r3, r4, r5⟩ :=
                hR σ (p ++ [c]) hnd (hsub c (List.mem_cons_self _ _)) hpresc
                  (hcnt c (List.mem_cons_self _ _))
              have hsubl1 : List.Sublist (recursiveDelete (f + 1) σ (p ++ [c])).1 σ :=
                recursiveDelete_sublist (f + 1) σ (p ++ [c])
              have hnd1 : (keys (recursiveDelete (f + 1) σ (p ++ [c])).1).Nodup :=
                keys_sublist_nodup _ _ hsubl1 hnd
              have hdisj : ∀ c2 ∈ cs2, ∀ q, underB (p ++ [c2]) q = true →
                  underB (p ++ [c]) q = false := by
                intro c2 hc2 q hq
                have hcc : c2 ≠ c := fun hcontra => hcnd.1 (hcontra ▸ hc2)
                exact sib_disjoint p c2 c q hcc hq
              have hag : ∀ c2 ∈ cs2, ∀ q, underB (p ++ [c2]) q = true →
                  getNode (recursiveDelete (f + 1) σ (p ++ [c])).1 q = getNode σ q := by
                intro c2 hc2 q hq
                exact r2 q (hdisj c2 hc2 q hq)
              obtain ⟨e1, e2, e3, e4, e5⟩ :=
                ihCs (recursiveDelete (f + 1) σ (p ++ [c])).1 hnd1 hcnd.2
                  (fun c2 hc2 => SubWF_congr σ _ (p ++ [c2]) hnd1
                    (fun q hq => hag c2 hc2 q hq) (hsub c2 (List.mem_cons_of_mem _ hc2)))
                  (fun c2 hc2 => by
                    rw [hag c2 hc2 (p ++ [c2]) (underB_refl _)]
                    exact hpres c2 (List.mem_cons_of_mem _ hc2))
                  (fun c2 hc2 => le_trans (subCnt_sublist _ _ hsubl1 (p ++ [c2]))
                    (hcnt c2 (List.mem_cons_of_mem _ hc2)))
              rw [delChildren_cons]
              rw [hg]
              refine ⟨?_, ?_, ?_, ?_, ?_⟩
              · intro c2 hc2 q hq
                rcases List.mem_cons.mp hc2 with rfl | hmem
                · have hz : ∀ c3 ∈ cs2, underB (p ++ [c3]) q = false := by
                    intro c3 hc3
                    by_contra hcontra
                    have h2 := hdisj c3 hc3 q (by simpa using hcontra)
                    rw [hq] at h2
                    cases h2
                  rw [e2 q hz]
                  exact r1 q hq
                · exact e1 c2 hmem q hq
              · intro q hq
                rw [e2 q (fun c2 hc2 => hq c2 (List.mem_cons_of_mem _ hc2))]
                exact r2 q (hq c (List.mem_cons_self _ _))
              · intro c2 hc2 q n hq hu
                rcases List.mem_cons.mp hc2 with rfl | hmem
                · by_cases hqc : q = p ++ [c2]
                  · subst hqc
                    rw [hg] at hq
                    cases hq
                    simp
                  · have := r3 q n hq hu hqc
                    simp only [List.mem_append]
                    left; right
                    exact this
                · have hq1 : getNode (recursiveDelete (f + 1) σ (p ++ [c])).1 q = some n := by
                    rw [hag c2 hmem q hu]
                    exact hq
                  have := e3 c2 hmem q n hq1 hu
                  simp only [List.mem_append]
                  right
                  exact this
              · intro e he
                simp only [List.mem_append] at he
                rcases he with (he | he) | he
                · rw [List.mem_singleton] at he
                  subst he
                  exact ⟨c, List.mem_cons_self _ _, p ++ [c], cn, hg, underB_refl _, rfl⟩
                · obtain ⟨q, n, hq, hu, -, he2⟩ := r4 e he
                  exact ⟨c, List.mem_cons_self _ _, q, n, hq, hu, he2⟩
                · obtain ⟨c2, hc2, q, n, hq, hu, he2⟩ := e4 e he
                  rw [hag c2 hc2 q hu] at hq
                  exact ⟨c2, List.mem_cons_of_mem _ hc2, q, n, hq, hu, he2⟩
              · rw [List.map_append, List.map_append]
                refine List.Nodup.append (List.Nodup.append (by simp) r5 ?_) e5 ?_
                · intro x hx hy
                  simp only [List.map_cons, List.map_nil, List.mem_singleton] at hx
                  subst hx
                  obtain ⟨ey, hey, hfy⟩ := List.mem_map.mp hy
                  obtain ⟨q, n, hq, hu, hneq, he2⟩ := r4 ey hey
                  subst he2
                  exact hneq hfy
                · intro x hx hy
                  obtain ⟨ey, hey, hfy⟩ := List.mem_map.mp hy
                  obtain ⟨c2, hc2, q2, n2, hq2, hu2, he3⟩ := e4 ey hey
                  subst he3
                  have hux2 : underB (p ++ [c2]) x = true := hfy ▸ hu2
                  have hux : underB (p ++ [c]) x = true := by
                    rw [List.mem_append] at hx
                    rcases hx with hx | hx
                    · simp only [List.map_cons, List.map_nil, List.mem_singleton] at hx
                      subst hx
                      exact underB_refl _
                    · obtain ⟨ex, hex, hfx⟩ := List.mem_map.mp hx
                      obtain ⟨q3, n3, hq3, hu3, -, he4⟩ := r4 ex hex
                      subst he4
                      exact hfx ▸ hu3
                  rw [hdisj c2 hc2 x hux2] at hux
                  cases hux

/-- **C6** — counterexample to the claimed event filter. In the store
`{"": {val: None, children: {a}}, "a": {val: None, children: {b}},
"a/b": {val: 1, children: {}}}` removing `"a"` queues the event
`("a", None, None)` although the removed node `"a"` held a null value:
`remove_item` and `_recursive_delete` queue one event per removed node
unconditionally, with no check that the old value is non-null. -/
theorem removeItem_null_event_cex :
    removeItem
        [([], ⟨none, ["a"]⟩), (["a"], ⟨none, ["b"]⟩), (["a", "b"], ⟨some 1, []⟩)]
        ["a"] =
      ([([], ⟨none, []⟩)], [(["a"], none, none), (["a", "b"], none, some 1)]) := by
  decide

/-- **C6** (corrected): for a present non-root path `p` in a store with
unique keys whose subtree at `p` is well-formed, `remove_item(p)` deletes
every node of the subtree rooted at `p`, leaves every node outside it
untouched except the parent of `p`, from whose children set the final
segment of `p` is discarded, and queues one change event
`(q, None, old value)` for **every** removed node `q` — including those
whose old value was `None` — with `p`'s own event first and no path
repeated. -/
theorem removeItem_spec (σ : Storage) (p : Path) (node : SNode)
    (hnd : (keys σ).Nodup) (hwf : SubWF σ p) (hp : p ≠ [])
    (hg : getNode σ p = some node) :
    (∀ q, underB p q = true → getNode (removeItem σ p).1 q = none) ∧
    (∀ q, underB p q = false → q ≠ p.dropLast →
      getNode (removeItem σ p).1 q = getNode σ q) ∧
    (∀ pn, getNode σ p.dropLast = some pn →
      getNode (removeItem σ p).1 p.dropLast =
        some { pn with children := pn.children.erase (p.getLastD "") }) ∧
    ((removeItem σ p).2.head? = some (p, none, node.val)) ∧
    (∀ q n, getNode σ q = some n → underB p q = true →
      (q, none, n.val) ∈ (removeItem σ p).2) ∧
    (∀ e ∈ (removeItem σ p).2, ∃ q n, getNode σ q = some n ∧
      underB p q = true ∧ e = (q, none, n.val)) ∧
    ((removeItem σ p).2.map fun e => e.1).Nodup := by
  obtain ⟨r1, r2, r3, r4, r5⟩ :=
    (delete_spec σ.length).1 σ p hnd hwf (by simp [hg]) (subCnt_le σ p)
  have hund : underB p p.dropLast = false := by
    apply not_under_shorter
    rw [List.length_dropLast]
    have := List.length_pos.mpr hp
    omega
  have hred : removeItem σ p =
      ((match getNode (recursiveDelete σ.length σ p).1 p.dropLast with
        | some pn =>
            setNode (recursiveDelete σ.length σ p).1 p.dropLast
              { pn with children := pn.children.erase (p.getLastD "") }
        | none => (recursiveDelete σ.length σ p).1),
       (p, none, node.val) :: (recursiveDelete σ.length σ p).2) := by
    simp only [removeItem]
    rw [if_neg hp, hg]
  have hev : (removeItem σ p).2 =
      (p, none, node.val) :: (recursiveDelete σ.length σ p).2 := by
    rw [hred]
  have h1 : ∀ q, underB p q = true → getNode (removeItem σ p).1 q = none := by
    intro q hq
    have hqpar : q ≠ p.dropLast := by
      intro hcontra
      rw [hcontra, hund] at hq
      cases hq
    rw [hred]
    cases hpar : getNode (recursiveDelete σ.length σ p).1 p.dropLast with
    | none => exact r1 q hq
    | some pn =>
        exact (getNode_setNode_ne (recursiveDelete σ.length σ p).1 p.dropLast q
          { pn with children := pn.children.erase (p.getLastD "") } hqpar).trans
          (r1 q hq)
  have h2 : ∀ q, underB p q = false → q ≠ p.dropLast →
      getNode (removeItem σ p).1 q = getNode σ q := by
    intro q hq hqpar
    rw [hred]
    cases hpar : getNode (recursiveDelete σ.length σ p).1 p.dropLast with
    | none => exact r2 q hq
    | some pn =>
        exact (getNode_setNode_ne (recursiveDelete σ.length σ p).1 p.dropLast q
          { pn with children := pn.children.erase (p.getLastD "") } hqpar).trans
          (r2 q hq)
  have h3 : ∀ pn, getNode σ p.dropLast = some pn →
      getNode (removeItem σ p).1 p.dropLast =
        some { pn with children := pn.children.erase (p.getLastD "") } := by
    intro pn hpnσ
    have hpn1 : getNode (recursiveDelete σ.length σ p).1 p.dropLast = some pn := by
      rw [r2 _ hund]
      exact hpnσ
    rw [hred, hpn1]
    exact getNode_setNode_self _ _ _
  have h4 : (removeItem σ p).2.head? = some (p, none, node.val) := by
    rw [hev]
    rfl
  have h5 : ∀ q n, getNode σ q = some n → underB p q = true →
      (q, none, n.val) ∈ (removeItem σ p).2 := by
    intro q n hq hu
    rw [hev]
    by_cases hqp : q = p
    · subst hqp
      rw [hg] at hq
      cases hq
      exact List.mem_cons_self _ _
    · exact List.mem_cons_of_mem _ (r3 q n hq hu hqp)
  have h6 : ∀ e ∈ (removeItem σ p).2, ∃ q n, getNode σ q = some n ∧
      underB p q = true ∧ e = (q, none, n.val) := by
    intro e he
    rw [hev] at he
    rcases List.mem_cons.mp he with rfl | he
    · exact ⟨p, node, hg, underB_refl _, rfl⟩
    · obtain ⟨q, n, hq, hu, -, he2⟩ := r4 e he
      exact ⟨q, n, hq, hu, he2⟩
  have h7 : ((removeItem σ p).2.map fun e => e.1).Nodup := by
    rw [hev, List.map_cons, List.nodup_cons]
    refine ⟨?_, r5⟩
    intro hmem
    obtain ⟨ey, hey, hfy⟩ := List.mem_map.mp hmem
    obtain ⟨q, n, hq, hu, hneq, he2⟩ := r4 ey hey
    subst he2
    exact hneq hfy
  exact ⟨h1, h2, h3, h4, h5, h6, h7⟩

theorem removeItem_spec_witness :
    ((keys [([], (⟨none, ["a"]⟩ : SNode)), (["a"], ⟨some 2, ["b"]⟩),
        (["a", "b"], ⟨some 1, []⟩)]).Nodup ∧
      SubWF [([], (⟨none, ["a"]⟩ : SNode)), (["a"], ⟨some 2, ["b"]⟩),
        (["a", "b"], ⟨some 1, []⟩)] ["a"] ∧
      (["a"] : Path) ≠ [] ∧
      getNode [([], (⟨none, ["a"]⟩ : SNode)), (["a"], ⟨some 2, ["b"]⟩),
        (["a", "b"], ⟨some 1, []⟩)] ["a"] = some ⟨some 2, ["b"]⟩) ∧
    ((∀ q, underB ["a"] q = true →
        getNode (removeItem [([], (⟨none, ["a"]⟩ : SNode)), (["a"], ⟨some 2, ["b"]⟩),
          (["a", "b"], ⟨some 1, []⟩)] ["a"]).1 q = none) ∧
      (∀ q, underB ["a"] q = false → q ≠ (["a"] : Path).dropLast →
        getNode (removeItem [([], (⟨none, ["a"]⟩ : SNode)), (["a"], ⟨some 2, ["b"]⟩),
          (["a", "b"], ⟨some 1, []⟩)] ["a"]).1 q =
          getNode [([], (⟨none, ["a"]⟩ : SNode)), (["a"], ⟨some 2, ["b"]⟩),
            (["a", "b"], ⟨some 1, []⟩)] q) ∧
      (∀ pn, getNode [([], (⟨none, ["a"]⟩ : SNode)), (["a"], ⟨some 2, ["b"]⟩),
          (["a", "b"], ⟨some 1, []⟩)] (["a"] : Path).dropLast = some pn →
        getNode (removeItem [([], (⟨none, ["a"]⟩ : SNode)), (["a"], ⟨some 2, ["b"]⟩),
          (["a", "b"], ⟨some 1, []⟩)] ["a"]).1 (["a"] : Path).dropLast =
          some { pn with children := pn.children.erase ((["a"] : Path).getLastD "") }) ∧
      ((removeItem [([], (⟨none, ["a"]⟩ : SNode)), (["a"], ⟨some 2, ["b"]⟩),
          (["a", "b"], ⟨some 1, []⟩)] ["a"]).2.head? =
        some (["a"], none, (⟨some 2, ["b"]⟩ : SNode).val)) ∧
      (∀ q n, getNode [([], (⟨none, ["a"]⟩ : SNode)), (["a"], ⟨some 2, ["b"]⟩),
          (["a", "b"], ⟨some 1, []⟩)] q = some n → underB ["a"] q = true →
        (q, none, n.val) ∈ (removeItem [([], (⟨none, ["a"]⟩ : SNode)),
          (["a"], ⟨some 2, ["b"]⟩), (["a", "b"], ⟨some 1, []⟩)] ["a"]).2) ∧
      (∀ e ∈ (removeItem [([], (⟨none, ["a"]⟩ : SNode)), (["a"], ⟨some 2, ["b"]⟩),
          (["a", "b"], ⟨some 1, []⟩)] ["a"]).2,
        ∃ q n, getNode [([], (⟨none, ["a"]⟩ : SNode)), (["a"], ⟨some 2, ["b"]⟩),
          (["a", "b"], ⟨some 1, []⟩)] q = some n ∧
          underB ["a"] q = true ∧ e = (q, none, n.val)) ∧
      ((removeItem [([], (⟨none, ["a"]⟩ : SNode)), (["a"], ⟨some 2, ["b"]⟩),
          (["a", "b"], ⟨some 1, []⟩)] ["a"]).2.map fun e => e.1).Nodup) :=
  ⟨⟨by decide, by unfold SubWF; decide, by decide, by decide⟩,
    removeItem_spec
      [([], (⟨none, ["a"]⟩ : SNode)), (["a"], ⟨some 2, ["b"]⟩),
        (["a", "b"], ⟨some 1, []⟩)]
      ["a"] ⟨some 2, ["b"]⟩ (by decide) (by unfold SubWF; decide) (by decide)
      (by decide)⟩

end TaskTonic
